import Mathlib

/-!
# Normalization and aggregation engine of the issue dashboard (`script.js`)

A shallow embedding of the data-processing functions of `src/script.js`
(`norm`, `normalizeSeverity`, the state predicates, `parseToDate`, the day key,
`renderTrendChart`, `renderGenericMatrix`) together with the parts of the
JavaScript runtime they rely on (string primitives, property lookup on plain
objects, the `Date` arithmetic of ECMAScript).

Conventions of the embedding
* A JavaScript string is a list of code points (`Str`); strings holding lone
  surrogates are outside the model.
* The Unicode case tables are not part of the program: they are a parameter
  (`CaseTable`) that is only required to agree with ASCII on ASCII input.
* A `Number` is modelled by an integer; fractional numbers need floating point
  and are outside the model.
* The host of the script (its local time zone and its `Date.parse`) is a
  parameter (`Host`).
-/

namespace IssueTracker

/-! ## Strings -/

/-- A JavaScript string, as the list of its code points. -/
abbrev Str := List Char

/-- The characters removed by `String.prototype.trim`, skipped by `parseInt` and
matched by the regular expression `\s`: white space and line terminators. -/
def isJsWhitespace (c : Char) : Bool :=
  let n := c.toNat
  n == 0x09 || n == 0x0A || n == 0x0B || n == 0x0C || n == 0x0D || n == 0x20 ||
  n == 0xA0 || n == 0x1680 || (0x2000 ≤ n && n ≤ 0x200A) || n == 0x2028 ||
  n == 0x2029 || n == 0x202F || n == 0x205F || n == 0x3000 || n == 0xFEFF

/-- The expression `s.trim()`. -/
def trim (s : Str) : Str :=
  ((s.dropWhile isJsWhitespace).reverse.dropWhile isJsWhitespace).reverse

/-- The expression `s.includes(t)`: `t` occurs in `s` as a contiguous substring. -/
def includes : Str → Str → Bool
  | [], t => t.isEmpty
  | c :: s, t => t.isPrefixOf (c :: s) || includes s t

/-- The case conversion of the runtime. `upperOf` is the full uppercase mapping
of one code point (`toUpperCase` maps code point by code point), `lowerStr` is
`toLowerCase` on a whole string (it is context sensitive in Unicode). Both agree
with ASCII on ASCII input, and only the empty string lowercases to the empty
string; nothing else is assumed about them. -/
structure CaseTable where
  upperOf : Char → Str
  lowerStr : Str → Str
  upper_ascii : ∀ c : Char, c.toNat < 128 → upperOf c = [c.toUpper]
  lower_ascii : ∀ s : Str, (∀ c ∈ s, c.toNat < 128) → lowerStr s = s.map Char.toLower
  lower_eq_nil : ∀ s : Str, lowerStr s = [] → s = []

/-- The expression `s.toUpperCase()`. -/
def toUpperCase (U : CaseTable) (s : Str) : Str :=
  s.flatMap U.upperOf

/-- The expression `s.toLowerCase()`. -/
def toLowerCase (U : CaseTable) (s : Str) : Str :=
  U.lowerStr s

/-- The case table that converts ASCII letters and leaves every other code
point alone. -/
def asciiCase : CaseTable where
  upperOf c := if c.toNat < 128 then [c.toUpper] else [c]
  lowerStr s := s.map fun c => if c.toNat < 128 then c.toLower else c
  upper_ascii := by
    intro c hc
    simp [hc]
  lower_ascii := by
    intro s hs
    apply List.map_congr_left
    intro c hc
    simp [hs c hc]
  lower_eq_nil := by
    intro s hs
    exact List.map_eq_nil_iff.1 hs

/-- Two strings differ at most in the case of their ASCII letters. -/
def SameLetters (t w : Str) : Prop :=
  t.map Char.toLower = w.map Char.toLower

instance (t w : Str) : Decidable (SameLetters t w) := by
  unfold SameLetters
  infer_instance

/-! ## Values -/

/-- The values a decoded record can hold under a key. `num` is an integral
`Number`. -/
inductive JsVal where
  | undefined
  | null
  | bool (b : Bool)
  | num (n : Int)
  | str (s : Str)
  deriving DecidableEq, Repr

/-- The decimal numeral of a natural number. -/
def decimal (n : Nat) : Str :=
  Nat.toDigits 10 n

/-- The decimal numeral of an integer, as `String(n)` writes an integral
`Number` below `10^21` in absolute value. -/
def decimalInt : Int → Str
  | Int.ofNat n => decimal n
  | Int.negSucc n => '-' :: decimal (n + 1)

/-- The expression `String(v)`. -/
def toJsString : JsVal → Str
  | .undefined => "undefined".toList
  | .null => "null".toList
  | .bool true => "true".toList
  | .bool false => "false".toList
  | .num n => decimalInt n
  | .str s => s

/-- Truthiness: what `if (v)` and `!v` test. -/
def truthy : JsVal → Bool
  | .undefined => false
  | .null => false
  | .bool b => b
  | .num n => n != 0
  | .str s => !s.isEmpty

/-! ## Severity classifier -/

/-- The five severity levels; `label` is the string the script uses for each. -/
inductive Severity where
  | Blocker
  | Critical
  | Major
  | Normal
  | Minor
  deriving DecidableEq, Repr

/-- The string of a severity level. -/
def Severity.label : Severity → Str
  | .Blocker => "Blocker".toList
  | .Critical => "Critical".toList
  | .Major => "Major".toList
  | .Normal => "Normal".toList
  | .Minor => "Minor".toList

/-- The function `normalizeSeverity(s)` of the script. -/
def normalizeSeverity (U : CaseTable) (v : JsVal) : Severity :=
  let s := toUpperCase U (toJsString v)
  if includes s "BLOCKER".toList then .Blocker
  else if includes s "P0".toList || includes s "CRITICAL".toList then .Critical
  else if includes s "P1".toList || includes s "MAJOR".toList then .Major
  else if includes s "P2".toList || includes s "NORMAL".toList then .Normal
  else .Minor

/-- The ordered marker rules of the severity classifier as the specification
words them: each rule names the markers of one level, most urgent first. -/
def severityRules : List (List Str × Severity) :=
  [(["BLOCKER".toList], .Blocker),
   (["P0".toList, "CRITICAL".toList], .Critical),
   (["P1".toList, "MAJOR".toList], .Major),
   (["P2".toList, "NORMAL".toList], .Normal)]

/-- The first-match-wins scan of an uppercased string over the ordered rules,
with `Minor` as the default. -/
def severityScan (up : Str) : Severity :=
  match severityRules.find? (fun r => r.1.any (fun m => includes up m)) with
  | some r => r.2
  | none => .Minor

/-! ## Field resolver and issue normalizer -/

/-- A decoded record: its own keys in `Object.keys` order, each with the value
stored under it. -/
abbrev RawRecord := List (Str × JsVal)

/-- The expression `row[k]` for a key of the record. -/
def getProp (row : RawRecord) (k : Str) : JsVal :=
  match row.find? (fun p => p.1 == k) with
  | some p => p.2
  | none => .undefined

/-- The comparison form of a key or alias: `k.toLowerCase().trim()`. -/
def normKey (U : CaseTable) (k : Str) : Str :=
  trim (toLowerCase U k)

/-- The expression `rowKeys.find(k => k.toLowerCase().trim() === target)` for the alias `key`. -/
def findKey (U : CaseTable) (row : RawRecord) (key : Str) : Option Str :=
  (row.map Prod.fst).find? (fun k => normKey U k == normKey U key)

/-- The helper `norm(row, ...keys)` of `processData`. The test `if (actualKey)`
fails when no key was found and also when the key found is the empty string. -/
def norm (U : CaseTable) (row : RawRecord) : List Str → JsVal
  | [] => .str "Unknown".toList
  | key :: keys =>
    match findKey U row key with
    | some actualKey =>
      if actualKey.isEmpty then norm U row keys else getProp row actualKey
    | none => norm U row keys

/-- The field resolver as the specification words it: the first alias, in
alias-list order, that equals some key of the record after lowercasing and
trimming both decides the result, which is the value stored under the (first)
key it equals; `"Unknown"` when no alias equals a key. -/
def resolveField (U : CaseTable) (row : RawRecord) (aliases : List Str) : JsVal :=
  match aliases.find? (fun a => row.any (fun p => normKey U p.1 == normKey U a)) with
  | some a =>
    match row.find? (fun p => normKey U p.1 == normKey U a) with
    | some p => p.2
    | none => .str "Unknown".toList
  | none => .str "Unknown".toList

/-- An element of `globalIssues`. -/
structure Issue where
  type : JsVal
  severity : JsVal
  state : JsVal
  assignee : JsVal
  module : JsVal
  fixedDate : JsVal
  foundDate : JsVal
  deriving DecidableEq, Repr

/-- The record-to-issue map of `processData`. -/
def normalizeIssue (U : CaseTable) (row : RawRecord) : Issue where
  type := norm U row ["Bug Type".toList, "Type".toList, "Issue Type".toList]
  severity := .str (normalizeSeverity U
    (norm U row ["Severity".toList, "Priority".toList])).label
  state := norm U row ["State".toList, "Status".toList]
  assignee := norm U row
    ["Assigned To".toList, "Developer".toList, "Assignee".toList, "Dev Name".toList]
  module := norm U row
    ["Module".toList, "Component".toList, "Feature".toList, "Area".toList]
  fixedDate := norm U row
    ["Bug Fixed Date and Timestamp".toList, "Bug Fixed Date".toList, "Fixed Date".toList,
     "Resolution Date".toList, "Fixed On".toList, "Closed Date".toList, "Date Fixed".toList]
  foundDate := norm U row
    ["Bug Found Date".toList, "Found Date".toList, "Created Date".toList,
     "Date Created".toList, "Creation Date".toList, "Raised Date".toList,
     "Detected Date".toList, "Date".toList, "Reported Date".toList, "Issue Date".toList]

/-- The assignment to `globalIssues` in `processData`. -/
def processData (U : CaseTable) (data : List RawRecord) : List Issue :=
  data.map (normalizeIssue U)

/-! ## State predicates -/

/-- The filter of `activeIssues` in `renderDashboard`: the uppercased state is
one of three words. -/
def isActiveForMatrix (U : CaseTable) (i : Issue) : Bool :=
  let s := toUpperCase U (toJsString i.state)
  ["ASSIGNED".toList, "REOPEN".toList, "RFT".toList].contains s

/-- The list `activeIssues` of `renderDashboard`. -/
def activeIssues (U : CaseTable) (globalIssues : List Issue) : List Issue :=
  globalIssues.filter (isActiveForMatrix U)

/-- The filter of `activeTrendIssues` in `renderTrendChart` (the local
`isActive`): the trimmed uppercased state holds one of four markers. -/
def isActiveForTrend (U : CaseTable) (i : Issue) : Bool :=
  let s := trim (toUpperCase U (toJsString i.state))
  includes s "ASSIGNED".toList || includes s "DEV".toList ||
    includes s "REOPEN".toList || includes s "PROGRESS".toList

/-- The list `activeTrendIssues` of `renderTrendChart`. -/
def activeTrendIssues (U : CaseTable) (issuesToRender : List Issue) : List Issue :=
  issuesToRender.filter (isActiveForTrend U)

/-- An issue that has the given state and `"Unknown"` in every other field. -/
def issueWithState (state : Str) : Issue where
  type := .str "Unknown".toList
  severity := .str "Minor".toList
  state := .str state
  assignee := .str "Unknown".toList
  module := .str "Unknown".toList
  fixedDate := .str "Unknown".toList
  foundDate := .str "Unknown".toList


/-! ## Pivot matrix builder

`renderGenericMatrix` keeps its counters in plain objects (`matrix = {}`,
`rowTotals = {}`). A read `matrix[key]` therefore finds not only the rows the
function declared but also what the object inherits from `Object.prototype`,
and an assignment to the key `__proto__` replaces the prototype instead of
creating a property. The model below follows these rules. -/

/-- The `rowKey` argument of `renderGenericMatrix`; the callers pass `"state"`,
`"type"` and `"assignee"`. -/
inductive RowKey where
  | state
  | type
  | assignee
  deriving DecidableEq, Repr

/-- The expression `i[rowKey]`. -/
def Issue.field (i : Issue) : RowKey → JsVal
  | .state => i.state
  | .type => i.type
  | .assignee => i.assignee

/-- The property names every plain object inherits from `Object.prototype`; the
value found under each of them is a function or an object, hence truthy. -/
def objectPrototypeKeys : List Str :=
  ["constructor".toList, "__defineGetter__".toList, "__defineSetter__".toList,
   "hasOwnProperty".toList, "__lookupGetter__".toList, "__lookupSetter__".toList,
   "isPrototypeOf".toList, "propertyIsEnumerable".toList, "toString".toList,
   "valueOf".toList, "__proto__".toList, "toLocaleString".toList]

/-- The key `__proto__`, whose assignment sets the prototype of an object. -/
def protoKey : Str := "__proto__".toList

/-- The severity level a string is the label of, if any. -/
def severityOfLabel (k : Str) : Option Severity :=
  [Severity.Blocker, .Critical, .Major, .Normal, .Minor].find? (fun v => v.label == k)

/-- The counters of `renderGenericMatrix`. `cells r` is the object stored by
`matrix[r] = {...}` (for the row `__proto__` it is the prototype that this
assignment installs), `rowTotals r` the number stored under `rowTotals[r]`,
`colTotals` and `total` the object `colTotals` with its entry `Total`. -/
structure MatrixState where
  cells : Str → Severity → Nat
  rowTotals : Str → Nat
  colTotals : Severity → Nat
  total : Nat

/-- The counters after the initialisation loop `rows.forEach(t => ...)`. -/
def MatrixState.init : MatrixState where
  cells := fun _ _ => 0
  rowTotals := fun _ => 0
  colTotals := fun _ => 0
  total := 0

/-- One more under the key `k`. -/
def bump {α : Type} [DecidableEq α] (f : α → Nat) (k : α) : α → Nat :=
  fun x => if x = k then f x + 1 else f x

/-- The rows that are properties of `matrix` and of `rowTotals` themselves:
the declared ones other than `__proto__`. -/
def isOwnRow (rows : List Str) (key : Str) : Bool :=
  rows.contains key && key != protoKey

/-- The test `if (matrix[key])`. A declared row is found on the object itself.
The key `__proto__` reads the prototype, an object. Any other key is looked up
along the prototype chain: first in the cell object installed by a declared row
`__proto__` (a severity label is found there, truthy when its count is not
zero), then in `Object.prototype`. -/
def matrixHas (rows : List Str) (st : MatrixState) (key : Str) : Bool :=
  if key == protoKey then true
  else if rows.contains key then true
  else if rows.contains protoKey then
    match severityOfLabel key with
    | some sev => st.cells protoKey sev != 0
    | none => objectPrototypeKeys.contains key
  else objectPrototypeKeys.contains key

/-- The body of `if (matrix[key]) { ... }` for one issue. For a declared row the
four increments land on its counters. For a key that is only inherited,
`matrix[key][sev]++` and `rowTotals[key]++` write to the inherited object and a
not-a-number entry under an undeclared key (none of which is read back), while
`colTotals[sev]++` and `colTotals["Total"]++` still count the issue; under the
key `__proto__` the cell increment lands in the installed prototype when the
row is declared. -/
def countIssue (rows : List Str) (st : MatrixState) (key : Str) (sev : Severity) :
    MatrixState :=
  if matrixHas rows st key then
    { cells :=
        if isOwnRow rows key || (key == protoKey && rows.contains protoKey) then
          fun r => if r = key then bump (st.cells r) sev else st.cells r
        else st.cells
      rowTotals := if isOwnRow rows key then bump st.rowTotals key else st.rowTotals
      colTotals := bump st.colTotals sev
      total := st.total + 1 }
  else st

/-- The key under which an issue is counted, `none` when computing it throws a
`TypeError`. In the state dimension the key is
`rows.find(fs => fs.toLowerCase() === rowVal.toLowerCase()) || rowVal`: the
callback runs only when `rows` is not empty, it throws when `rowVal` is not a
string, and an empty row label found is falsy. In the other dimensions the key
is the row value, converted to a string as every property key is. -/
def matrixKey (U : CaseTable) (rows : List Str) (rowKey : RowKey) (i : Issue) : Option Str :=
  match rowKey, rows, i.field rowKey with
  | .state, _ :: _, .str v =>
    match rows.find? (fun fs => toLowerCase U fs == toLowerCase U v) with
    | some fs => if fs.isEmpty then some v else some fs
    | none => some v
  | .state, _ :: _, _ => none
  | _, _, rowVal => some (toJsString rowVal)

/-- The counting loop `issues.forEach(i => ...)` of `renderGenericMatrix`, from
the counters `st` on. -/
def countIssues (U : CaseTable) (rows : List Str) (rowKey : RowKey) :
    MatrixState → List Issue → Option MatrixState
  | st, [] => some st
  | st, i :: rest =>
    match matrixKey U rows rowKey i with
    | some key =>
      countIssues U rows rowKey
        (countIssue rows st key (normalizeSeverity U i.severity)) rest
    | none => none

/-- The counters `renderGenericMatrix(container, issues, rows, rowKey, _)` has
built when it renders the table, `none` when it throws. The rows of the table
are declared labels, given as the property keys they are used as. -/
def renderGenericMatrix (U : CaseTable) (issues : List Issue) (rows : List Str)
    (rowKey : RowKey) : Option MatrixState :=
  countIssues U rows rowKey MatrixState.init issues

/-- The row total the table shows for a declared row: `rowTotals[r]`, which for
the row `__proto__` is the object `Object.prototype` and not a number. -/
def shownRowTotal (st : MatrixState) (r : Str) : Option Nat :=
  if r == protoKey then none else some (st.rowTotals r)

/-- The sum of the five severity entries of `colTotals`. -/
def colSum (st : MatrixState) : Nat :=
  st.colTotals .Blocker + st.colTotals .Critical + st.colTotals .Major +
    st.colTotals .Normal + st.colTotals .Minor

/-- The sum of `rowTotals` over the declared rows, each label once. -/
def rowSum (rows : List Str) (st : MatrixState) : Nat :=
  (rows.dedup.map st.rowTotals).sum

/-- An issue's row value matches a declared row: case-insensitively in the
state dimension, by identity of the property key otherwise. -/
def matchesDeclaredRow (U : CaseTable) (rows : List Str) (rowKey : RowKey) (i : Issue) :
    Bool :=
  match rowKey with
  | .state =>
    rows.any (fun fs => toLowerCase U fs == toLowerCase U (toJsString i.state))
  | _ => rows.contains (toJsString (i.field rowKey))

/-- An issue of the given bug type and severity, state `Assigned`. -/
def issueOfType (type severity : Str) : Issue where
  type := .str type
  severity := .str severity
  state := .str "Assigned".toList
  assignee := .str "Unknown".toList
  module := .str "Unknown".toList
  fixedDate := .str "Unknown".toList
  foundDate := .str "Unknown".toList


/-! ## Dates

A `Date` object is modelled by its time value: `some t` for `t` milliseconds
since the epoch (UTC), `none` for an Invalid Date (time value `NaN`). The
functions below are those of the ECMAScript specification, on integers. -/

/-- What the script takes from its host: the offset of local time from UTC in
milliseconds (`LocalTZA`, for a zone without transitions, less than a day either
way) and the function `Date.parse`, whose result for strings outside the
standard format is left to the implementation (`none` is `NaN`). -/
structure Host where
  tza : Int
  parse : Str → Option Int
  tza_bound : -86400000 < tza ∧ tza < 86400000

/-- Milliseconds per day. -/
def msPerDay : Int := 86400000

/-- The operation `TimeClip`: a time value beyond 8.64e15 ms from the epoch is `NaN`. -/
def timeClip (t : Int) : Option Int :=
  if -8640000000000000 ≤ t ∧ t ≤ 8640000000000000 then some t else none

/-- The operation `DayFromYear(y)`: the day number of 1 January of year `y`. -/
def dayFromYear (y : Int) : Int :=
  365 * (y - 1970) + (y - 1969) / 4 - (y - 1901) / 100 + (y - 1601) / 400

/-- The operation `DaysInYear(y)`. -/
def daysInYear (y : Int) : Int :=
  if y % 4 ≠ 0 then 365
  else if y % 100 ≠ 0 then 366
  else if y % 400 ≠ 0 then 365
  else 366

/-- The operation `InLeapYear`, as 0 or 1. -/
def leapDay (y : Int) : Int :=
  if daysInYear y = 366 then 1 else 0

/-- The operation `YearFromTime` on day numbers: the largest `y` with `dayFromYear y ≤ d`,
found from an estimate that is off by one at most. -/
def yearFromDay (d : Int) : Int :=
  let y := 1970 + d * 400 / 146097
  if dayFromYear (y + 1) ≤ d then y + 1
  else if dayFromYear y ≤ d then y
  else y - 1

/-- The day within the year on which month `mn` (0 to 11) starts. -/
def monthStart (mn leap : Int) : Int :=
  if mn = 0 then 0
  else if mn = 1 then 31
  else if mn = 2 then 59 + leap
  else if mn = 3 then 90 + leap
  else if mn = 4 then 120 + leap
  else if mn = 5 then 151 + leap
  else if mn = 6 then 181 + leap
  else if mn = 7 then 212 + leap
  else if mn = 8 then 243 + leap
  else if mn = 9 then 273 + leap
  else if mn = 10 then 304 + leap
  else 334 + leap

/-- The number of days of month `m` (1 to 12) of year `y`. -/
def daysInMonth (y m : Int) : Int :=
  if m = 2 then 28 + leapDay y
  else if m = 4 ∨ m = 6 ∨ m = 9 ∨ m = 11 then 30
  else 31

/-- The operation `MonthFromTime` on day numbers (0 is January). -/
def monthFromDay (d : Int) : Int :=
  let y := yearFromDay d
  let dwy := d - dayFromYear y
  let leap := leapDay y
  if dwy < 31 then 0
  else if dwy < 59 + leap then 1
  else if dwy < 90 + leap then 2
  else if dwy < 120 + leap then 3
  else if dwy < 151 + leap then 4
  else if dwy < 181 + leap then 5
  else if dwy < 212 + leap then 6
  else if dwy < 243 + leap then 7
  else if dwy < 273 + leap then 8
  else if dwy < 304 + leap then 9
  else if dwy < 334 + leap then 10
  else 11

/-- The operation `DateFromTime` on day numbers: the day of the month, from 1. -/
def dateFromDay (d : Int) : Int :=
  let y := yearFromDay d
  d - dayFromYear y - monthStart (monthFromDay d) (leapDay y) + 1

/-- The operation `MakeDay(year, month, date)` for integral arguments: months beyond 0 to 11
carry into the year, and the date counts on from the first of the month. -/
def makeDay (year month date : Int) : Int :=
  let ym := year + month / 12
  let mn := month % 12
  dayFromYear ym + monthStart mn (leapDay ym) + date - 1

/-- The expression `new Date(year, month, day)`: local midnight of that day; a `NaN` argument
gives an Invalid Date, and a year from 0 to 99 stands for 1900 + year. -/
def newDateYMD (H : Host) (year month day : Option Int) : Option Int :=
  match year, month, day with
  | some y, some m, some dt =>
    let yr := if 0 ≤ y ∧ y ≤ 99 then 1900 + y else y
    timeClip (makeDay yr m dt * msPerDay - H.tza)
  | _, _, _ => none

/-- The expression `d.setHours(12, 0, 0, 0)`: local noon of the local day of `d`; an Invalid
Date stays invalid. -/
def setHoursNoon (H : Host) (d : Option Int) : Option Int :=
  match d with
  | some t => timeClip ((t + H.tza) / msPerDay * msPerDay + 43200000 - H.tza)
  | none => none

/-- The expression `new Date(s)` for a string: the parsed time value, clipped. -/
def newDateString (H : Host) (s : Str) : Option Int :=
  match H.parse s with
  | some t => timeClip t
  | none => none

/-- The local day number of a time value. -/
def localDay (H : Host) (t : Int) : Int :=
  (t + H.tza) / msPerDay

/-- The expression `d.getFullYear()`. -/
def getFullYear (H : Host) (t : Int) : Int :=
  yearFromDay (localDay H t)

/-- The expression `d.getMonth()`. -/
def getMonth (H : Host) (t : Int) : Int :=
  monthFromDay (localDay H t)

/-- The expression `d.getDate()`. -/
def getDate (H : Host) (t : Int) : Int :=
  dateFromDay (localDay H t)

/-- The expression `s.padStart(2, '0')`. -/
def padStart2 (s : Str) : Str :=
  List.replicate (2 - s.length) '0' ++ s

/-- The day key `isoKey` of a date:
`d.getFullYear() + '-' + String(d.getMonth() + 1).padStart(2, '0') + '-' +
String(d.getDate()).padStart(2, '0')`. -/
def isoKey (H : Host) (t : Int) : Str :=
  decimalInt (getFullYear H t) ++ '-' :: padStart2 (decimalInt (getMonth H t + 1)) ++
    '-' :: padStart2 (decimalInt (getDate H t))

/-- The value of a digit in the given radix, if the character is one. -/
def digitValue (radix : Nat) (c : Char) : Option Nat :=
  let v :=
    if 48 ≤ c.toNat ∧ c.toNat ≤ 57 then some (c.toNat - 48)
    else if 97 ≤ c.toNat ∧ c.toNat ≤ 122 then some (c.toNat - 87)
    else if 65 ≤ c.toNat ∧ c.toNat ≤ 90 then some (c.toNat - 55)
    else none
  v.filter (fun n => n < radix)

/-- The value of the longest prefix of digits, with the number of digits read. -/
def readDigits (radix : Nat) : Str → Nat → Nat → Nat × Nat
  | [], acc, n => (acc, n)
  | c :: s, acc, n =>
    match digitValue radix c with
    | some v => readDigits radix s (acc * radix + v) (n + 1)
    | none => (acc, n)

/-- The expression `parseInt(s)` with no radix argument: leading white space is
skipped, a sign is read, the prefix `0x` or `0X` selects radix 16, and the
longest prefix of digits is the value; `none` (`NaN`) when there is no digit. -/
def parseInt (s : Str) : Option Int :=
  let s1 := s.dropWhile isJsWhitespace
  let sign : Int := match s1 with
    | '-' :: _ => -1
    | _ => 1
  let s2 := match s1 with
    | '-' :: r => r
    | '+' :: r => r
    | _ => s1
  let radix : Nat := match s2 with
    | '0' :: 'x' :: _ => 16
    | '0' :: 'X' :: _ => 16
    | _ => 10
  let s3 := match s2 with
    | '0' :: 'x' :: r => r
    | '0' :: 'X' :: r => r
    | _ => s2
  match readDigits radix s3 0 0 with
  | (_, 0) => none
  | (v, _) => some (sign * v)

/-- The separators of the regular expression `/[\/\.\-]/`. -/
def isDateSeparator (c : Char) : Bool :=
  c == '/' || c == '.' || c == '-'

/-- The expression `s.split(/[\/\.\-]/)`. -/
def splitDate : Str → List Str
  | [] => [[]]
  | c :: s =>
    if isDateSeparator c then [] :: splitDate s
    else
      match splitDate s with
      | [] => [[c]]
      | p :: ps => (c :: p) :: ps

/-- The date built from the parts of a text that the direct parse rejected:
day, month and year are read positionally, a year below 100 gets 2000 added. -/
def dateFromParts (H : Host) (parts : List Str) : Option Int :=
  match parts with
  | p0 :: p1 :: p2 :: _ =>
    let day := parseInt p0
    let month := (parseInt p1).map (fun m => m - 1)
    let year := (parseInt p2).map (fun y => if y < 100 then y + 2000 else y)
    newDateYMD H year month day
  | _ => none

/-- The function `parseToDate(dateVal)` of the script; `none` is `null`. -/
def parseToDate (H : Host) (dateVal : JsVal) : Option Int :=
  if !truthy dateVal then none
  else if dateVal = .str "Unknown".toList then none
  else
    match dateVal with
    | .num n => setHoursNoon H (timeClip ((n - 25569) * 86400 * 1000))
    | .str v =>
      let cleanStr := trim v
      match newDateString H cleanStr with
      | some t => setHoursNoon H (some t)
      | none => setHoursNoon H (dateFromParts H (splitDate cleanStr))
    | .bool b => setHoursNoon H (timeClip (if b then 1 else 0))
    | _ => none

/-- The day key of a raw date value, when it parses. -/
def dayKeyOf (H : Host) (dateVal : JsVal) : Option Str :=
  (parseToDate H dateVal).map (isoKey H)

/-- A parser that knows the date-only form `YYYY-MM-DD` of the standard format,
which denotes UTC midnight, and nothing else. -/
def parseIsoDate (s : Str) : Option Int :=
  match s with
  | [y1, y2, y3, y4, '-', m1, m2, '-', d1, d2] =>
    match readDigits 10 [y1, y2, y3, y4] 0 0, readDigits 10 [m1, m2] 0 0,
      readDigits 10 [d1, d2] 0 0 with
    | (y, 4), (m, 2), (d, 2) =>
      if 1 ≤ m ∧ m ≤ 12 ∧ 1 ≤ d ∧ (d : Int) ≤ daysInMonth y m then
        some (makeDay y (m - 1) d * msPerDay)
      else none
    | _, _, _ => none
  | _ => none

/-- A host on UTC whose `Date.parse` knows only the date-only standard form; it
rejects every other text, also those that engines with a month-first reading
accept (see `monthFirstHost`). -/
def utcHost : Host where
  tza := 0
  parse := parseIsoDate
  tza_bound := by decide

/-- A host five hours west of Greenwich (UTC-05:00) with the same parser. -/
def westHost : Host where
  tza := -18000000
  parse := parseIsoDate
  tza_bound := by decide

/-- The value of a text made of decimal digits only, `none` for any other. -/
def readNumber (s : Str) : Option Nat :=
  match readDigits 10 s 0 0 with
  | (v, n) => if n = s.length ∧ 0 < n then some v else none

/-- A parser in the manner of the engines that read a text of three numeric
parts month first: month from 1 to 12, day from 1 to 31, then the year, a year
below 50 standing for 2000 + year and one from 50 to 99 for 1900 + year; the
date is local midnight, days beyond the end of the month carrying over. Any
other text, such as one whose first part is above 12, is rejected. -/
def parseMonthFirst (tza : Int) (s : Str) : Option Int :=
  match splitDate s with
  | [p0, p1, p2] =>
    match readNumber p0, readNumber p1, readNumber p2 with
    | some m, some d, some y =>
      if 1 ≤ m ∧ m ≤ 12 ∧ 1 ≤ d ∧ d ≤ 31 then
        let yr : Int := if y < 50 then 2000 + y else if y < 100 then 1900 + y else y
        some (makeDay yr ((m : Int) - 1) d * msPerDay - tza)
      else none
    | _, _, _ => none
  | _ => none

/-- A host on UTC whose `Date.parse` knows the date-only standard form and
reads the other texts of three numeric parts month first. -/
def monthFirstHost : Host where
  tza := 0
  parse := fun s =>
    match parseIsoDate s with
    | some t => some t
    | none => parseMonthFirst 0 s
  tza_bound := by decide


/-- The four-digit numeral of a year, zero-padded (`YYYY`). -/
def fourDigits (n : Int) : Str :=
  [Nat.digitChar (n.toNat / 1000 % 10), Nat.digitChar (n.toNat / 100 % 10),
   Nat.digitChar (n.toNat / 10 % 10), Nat.digitChar (n.toNat % 10)]

/-- The two-digit numeral of a month or day, zero-padded (`MM`, `DD`). -/
def twoDigits (n : Int) : Str :=
  [Nat.digitChar (n.toNat / 10 % 10), Nat.digitChar (n.toNat % 10)]

/-- The zero-padded day key `YYYY-MM-DD` of a year, a month and a day. -/
def paddedKey (y m d : Int) : Str :=
  fourDigits y ++ '-' :: twoDigits m ++ '-' :: twoDigits d


/-! ## Trend aggregator -/

/-- The statement `trendData[isoKey] = (trendData[isoKey] || 0) + 1` on the
properties of the object `trendData`, kept in insertion order. (A day key holds
a hyphen, so it is never a name inherited from `Object.prototype`.) -/
def addCount : List (Str × Nat) → Str → List (Str × Nat)
  | [], k => [(k, 1)]
  | (k', n) :: rest, k =>
    if k' = k then (k', n + 1) :: rest else (k', n) :: addCount rest k

/-- The body of `activeTrendIssues.forEach(i => ...)`. -/
def trendStep (H : Host) (td : List (Str × Nat)) (i : Issue) : List (Str × Nat) :=
  match parseToDate H i.foundDate with
  | some t => addCount td (isoKey H t)
  | none => td

/-- The object `trendData` of `renderTrendChart` after the aggregation loop. -/
def trendData (U : CaseTable) (H : Host) (issuesToRender : List Issue) : List (Str × Nat) :=
  (activeTrendIssues U issuesToRender).foldl (trendStep H) []

/-- The expression `Array.prototype.sort()` on strings: ascending in the order of their code
units, which for the strings sorted here is the order of their code points. -/
def sortStrings (l : List Str) : List Str :=
  l.insertionSort (· ≤ ·)

/-- The assignment `sortedIsoDates = Object.keys(trendData).sort()`. -/
def sortedIsoDates (U : CaseTable) (H : Host) (issuesToRender : List Issue) : List Str :=
  sortStrings ((trendData U H issuesToRender).map Prod.fst)

/-- The count stored under a key of `trendData`, 0 when the key is absent. -/
def countOf (td : List (Str × Nat)) (k : Str) : Nat :=
  match td.find? (fun p => p.1 == k) with
  | some p => p.2
  | none => 0

/-- The assignment `lineData = sortedIsoDates.map(date => trendData[date])`. -/
def lineData (U : CaseTable) (H : Host) (issuesToRender : List Issue) : List Nat :=
  (sortedIsoDates U H issuesToRender).map (countOf (trendData U H issuesToRender))

/-- Every count stored in `trendData` is positive. -/
def PositiveCounts (td : List (Str × Nat)) : Prop :=
  ∀ p ∈ td, 0 < p.2

/-- An issue with the given state and found date, `"Unknown"` elsewhere. -/
def issueFound (state : Str) (foundDate : JsVal) : Issue where
  type := .str "Unknown".toList
  severity := .str "Minor".toList
  state := .str state
  assignee := .str "Unknown".toList
  module := .str "Unknown".toList
  fixedDate := .str "Unknown".toList
  foundDate := foundDate


/-! ## Ingestion, tiles and resolution summary -/

/-- An element of the array decoded from the issue body, with the fields that
`fetchIssueData` reads; a field the element lacks reads as `undefined`. -/
structure ApiItem where
  bug_type : JsVal
  severity : JsVal
  state : JsVal
  assigned_to : JsVal
  module_name : JsVal
  bug_found : JsVal
  bug_fixed : JsVal
  priority : JsVal

/-- The object that `fetchIssueData` builds for one element (`mappedData`). -/
def mappedData (item : ApiItem) : RawRecord :=
  [("Bug Type".toList, item.bug_type),
   ("Severity".toList, item.severity),
   ("State".toList, item.state),
   ("Assigned To".toList, item.assigned_to),
   ("Module".toList, item.module_name),
   ("Bug Found Date".toList, item.bug_found),
   ("Bug Fixed Date".toList, item.bug_fixed),
   ("Priority".toList, item.priority)]

/-- The aliases under which `processData` looks the severity up. -/
def severityAliases : List Str :=
  ["Severity".toList, "Priority".toList]

/-- The body of `globalIssues.forEach(issue => ...)` in `renderDashboard`: five
tests of the stored severity against the five labels. -/
def tileStep (counts : Severity → Nat) (issue : Issue) : Severity → Nat :=
  let c1 := if issue.severity = .str "Blocker".toList then bump counts .Blocker else counts
  let c2 := if issue.severity = .str "Critical".toList then bump c1 .Critical else c1
  let c3 := if issue.severity = .str "Major".toList then bump c2 .Major else c2
  let c4 := if issue.severity = .str "Normal".toList then bump c3 .Normal else c3
  if issue.severity = .str "Minor".toList then bump c4 .Minor else c4

/-- The object `counts` that `renderDashboard` passes to `updateTiles`. -/
def tileCounts (globalIssues : List Issue) : Severity → Nat :=
  globalIssues.foldl tileStep (fun _ => 0)

/-- The sum of the five tile counts. -/
def tileSum (counts : Severity → Nat) : Nat :=
  counts .Blocker + counts .Critical + counts .Major + counts .Normal + counts .Minor

/-- The filter of `fixedIssues` in `renderResolutionChart`: the uppercased state
is exactly one of three words. -/
def isResolved (U : CaseTable) (i : Issue) : Bool :=
  let s := toUpperCase U (toJsString i.state)
  s == "FIXED".toList || s == "RESOLVED".toList || s == "CLOSED".toList

/-- The list `fixedIssues` of `renderResolutionChart`. -/
def fixedIssues (U : CaseTable) (issues : List Issue) : List Issue :=
  issues.filter (isResolved U)

/-- The body of `fixedIssues.forEach(i => ...)`: the counter under the key
`i.severity` is incremented when `counts[i.severity]` is defined. Under a key
that is not one of the five labels the increment, if any, writes outside the
five counters. -/
def resolutionStep (counts : Severity → Nat) (i : Issue) : Severity → Nat :=
  match severityOfLabel (toJsString i.severity) with
  | some sev => bump counts sev
  | none => counts

/-- What `renderResolutionChart` computes: the centre total `fixedCount` and the
five entries of `counts` that it charts (`dataValues`). -/
structure ResolutionSummary where
  fixedCount : Nat
  bySeverity : Severity → Nat

/-- The function `renderResolutionChart(issues)`, up to the drawing. -/
def renderResolutionChart (U : CaseTable) (issues : List Issue) : ResolutionSummary where
  fixedCount := (fixedIssues U issues).length
  bySeverity := (fixedIssues U issues).foldl resolutionStep (fun _ => 0)

/-- An issue is normalized when its severity is one of the five labels, as
`processData` stores it. -/
def IsNormalized (i : Issue) : Prop :=
  ∃ sev : Severity, i.severity = .str sev.label

/-- The record of Scenario A as `fetchIssueData` reads it: the element has no
`module_name` and no `priority`. -/
def scenarioA : ApiItem where
  bug_type := .str "UI".toList
  severity := .str "P0".toList
  state := .str "Fixed".toList
  assigned_to := .str "Ann".toList
  module_name := .undefined
  bug_found := .str "01-02-2024".toList
  bug_fixed := .str "03-02-2024".toList
  priority := .undefined

/-! ## State matrix rows -/

/-- The predefined order `stateOrder` of `renderStateMatrix`. -/
def stateOrder : List Str :=
  ["Assigned".toList, "In Dev".toList, "RFT".toList, "Fixed".toList, "Reopen".toList]

/-- The distinct elements of a list in the order of their first occurrence, as
`[...new Set(xs)]` lists them. -/
def newSet : List Str → List Str
  | [] => []
  | x :: xs => x :: (newSet xs).filter (fun y => y != x)

/-- The states of the issues when all of them are strings, `none` otherwise. -/
def stateStrings : List Issue → Option (List Str)
  | [] => some []
  | i :: rest =>
    match i.state, stateStrings rest with
    | .str s, some ss => some (s :: ss)
    | _, _ => none

/-- The body of `presentStates.forEach(s => ...)`: a state that equals no entry
of `stateOrder` ignoring case and is not yet a row is pushed as a new row. -/
def pushState (U : CaseTable) (finalStates : List Str) (s : Str) : List Str :=
  let normalized := stateOrder.find? (fun so => toLowerCase U so == toLowerCase U s)
  let missing := match normalized with
    | some so => so.isEmpty
    | none => true
  if missing && !finalStates.contains s then finalStates ++ [s] else finalStates

/-- The rows `finalStates` that `renderStateMatrix` derives from the distinct
states `presentStates`. -/
def finalStates (U : CaseTable) (presentStates : List Str) : List Str :=
  presentStates.foldl (pushState U)
    (stateOrder.filter (fun s => presentStates.contains s ||
      presentStates.any (fun ps => toLowerCase U ps == toLowerCase U s)))

/-- The function `renderStateMatrix(issues)`: the counters of the state matrix,
`none` when a `TypeError` is thrown, which is when some state is not a string
(`toLowerCase` is called on every distinct state). -/
def renderStateMatrix (U : CaseTable) (issues : List Issue) : Option MatrixState :=
  match stateStrings issues with
  | some states => renderGenericMatrix U issues (finalStates U (newSet states)) .state
  | none => none


/-! ## Theorems -/

theorem includes_iff (s t : Str) : includes s t = true ↔ t <:+: s := by
  induction s with
  | nil =>
    cases t <;> simp [includes]
  | cons c s ih =>
    rw [includes, Bool.or_eq_true, ih, List.isPrefixOf_iff_prefix, List.infix_cons_iff]

theorem toUpperCase_append (U : CaseTable) (a b : Str) :
    toUpperCase U (a ++ b) = toUpperCase U a ++ toUpperCase U b := by
  simp [toUpperCase]

theorem toUpperCase_ascii (U : CaseTable) (s : Str) (h : ∀ c ∈ s, c.toNat < 128) :
    toUpperCase U s = s.map Char.toUpper := by
  induction s with
  | nil => rfl
  | cons c s ih =>
    have hc := U.upper_ascii c (h c (List.mem_cons_self c s))
    have hs := ih (fun d hd => h d (List.mem_cons_of_mem c hd))
    simp only [toUpperCase] at hs ⊢
    simp [List.flatMap_cons, hc, hs]

theorem ascii_char_cases (P : Char → Prop) (h : ∀ n : Fin 128, P (Char.ofNat n.val))
    (c : Char) (hc : c.toNat < 128) : P c := by
  have := h ⟨c.toNat, hc⟩
  simpa [Char.ofNat_toNat] using this

theorem toLower_of_not_ascii (c : Char) (hc : ¬ c.toNat < 128) : c.toLower = c := by
  unfold Char.toLower
  simp only [ge_iff_le, ite_eq_right_iff, and_imp]
  intro _ h
  exfalso
  apply hc
  have : c.val.toNat ≤ 90 := h
  show c.val.toNat < 128
  omega

theorem toLower_toUpper (c : Char) : c.toLower.toUpper = c.toUpper := by
  by_cases hc : c.toNat < 128
  · exact ascii_char_cases (fun c => c.toLower.toUpper = c.toUpper) (by decide) c hc
  · rw [toLower_of_not_ascii c hc]

theorem toLower_ascii (c : Char) : c.toLower.toNat < 128 ↔ c.toNat < 128 := by
  by_cases hc : c.toNat < 128
  · simp only [hc, iff_true]
    exact ascii_char_cases (fun c => c.toLower.toNat < 128) (by decide) c hc
  · rw [toLower_of_not_ascii c hc]

/-- Uppercasing a case variant of an ASCII word gives the uppercased word. -/
theorem toUpperCase_sameLetters (U : CaseTable) (t w : Str)
    (hw : ∀ c ∈ w, c.toNat < 128) (h : SameLetters t w) :
    toUpperCase U t = w.map Char.toUpper := by
  have ht : ∀ c ∈ t, c.toNat < 128 := by
    intro c hc
    have hmem : c.toLower ∈ w.map Char.toLower := by
      rw [← h]
      exact List.mem_map_of_mem _ hc
    obtain ⟨d, hd, hdc⟩ := List.mem_map.1 hmem
    have h1 : c.toLower.toNat < 128 := by
      rw [← hdc]
      exact (toLower_ascii d).2 (hw d hd)
    exact (toLower_ascii c).1 h1
  rw [toUpperCase_ascii U t ht]
  have e1 : t.map Char.toUpper = (t.map Char.toLower).map Char.toUpper := by
    rw [List.map_map]
    exact List.map_congr_left (fun c _ => (toLower_toUpper c).symm)
  have e2 : (w.map Char.toLower).map Char.toUpper = w.map Char.toUpper := by
    rw [List.map_map]
    exact List.map_congr_left (fun c _ => toLower_toUpper c)
  rw [e1, h, e2]

/-- A string holding a case variant of an ASCII word holds the uppercased word
once it is uppercased. -/
theorem includes_upper_of_sameLetters (U : CaseTable) (s t w : Str)
    (hw : ∀ c ∈ w, c.toNat < 128) (h : SameLetters t w) (hin : t <:+: s) :
    includes (toUpperCase U s) (w.map Char.toUpper) = true := by
  obtain ⟨a, b, rfl⟩ := hin
  rw [includes_iff, toUpperCase_append, toUpperCase_append,
    toUpperCase_sameLetters U t w hw h]
  exact ⟨toUpperCase U a, toUpperCase U b, rfl⟩

theorem severityScan_eq (up : Str) :
    severityScan up =
      if includes up "BLOCKER".toList then .Blocker
      else if includes up "P0".toList || includes up "CRITICAL".toList then .Critical
      else if includes up "P1".toList || includes up "MAJOR".toList then .Major
      else if includes up "P2".toList || includes up "NORMAL".toList then .Normal
      else .Minor := by
  have e : severityScan up =
      bif includes up "BLOCKER".toList then .Blocker
      else bif includes up "P0".toList || includes up "CRITICAL".toList then .Critical
      else bif includes up "P1".toList || includes up "MAJOR".toList then .Major
      else bif includes up "P2".toList || includes up "NORMAL".toList then .Normal
      else .Minor := by
    simp only [severityScan, severityRules, List.find?, List.any, Bool.or_false]
    cases includes up "BLOCKER".toList <;>
    cases includes up "P0".toList <;> cases includes up "CRITICAL".toList <;>
    cases includes up "P1".toList <;> cases includes up "MAJOR".toList <;>
    cases includes up "P2".toList <;> cases includes up "NORMAL".toList <;> rfl
  rw [e]
  cases includes up "BLOCKER".toList <;>
  cases includes up "P0".toList <;> cases includes up "CRITICAL".toList <;>
  cases includes up "P1".toList <;> cases includes up "MAJOR".toList <;>
  cases includes up "P2".toList <;> cases includes up "NORMAL".toList <;> rfl

/-- C2: `normalizeSeverity` is the first-match-wins scan of the uppercased input
over the ordered marker rules (BLOCKER; P0 or CRITICAL; P1 or MAJOR; P2 or
NORMAL; default Minor). A string that holds "blocker" in any letter case is a
Blocker whatever else it holds, and "P9-unknown", "P3" and the empty string are
Minor. -/
theorem normalizeSeverity_scan (U : CaseTable) :
    (∀ v : JsVal, normalizeSeverity U v = severityScan (toUpperCase U (toJsString v))) ∧
    (∀ s t : Str, SameLetters t "blocker".toList → t <:+: s →
      normalizeSeverity U (.str s) = .Blocker) ∧
    normalizeSeverity U (.str "P9-unknown".toList) = .Minor ∧
    normalizeSeverity U (.str "P3".toList) = .Minor ∧
    normalizeSeverity U (.str []) = .Minor := by
  refine ⟨?_, ?_, ?_, ?_, ?_⟩
  · intro v
    rw [severityScan_eq]
    rfl
  · intro s t ht hin
    have h := includes_upper_of_sameLetters U s t "blocker".toList (by decide) ht hin
    have e : ("blocker".toList).map Char.toUpper = "BLOCKER".toList := by decide
    rw [e] at h
    simp only [normalizeSeverity, toJsString, h, if_true]
  · have e := toUpperCase_ascii U "P9-unknown".toList (by decide)
    simp only [normalizeSeverity, toJsString, e]
    decide
  · have e := toUpperCase_ascii U "P3".toList (by decide)
    simp only [normalizeSeverity, toJsString, e]
    decide
  · have e := toUpperCase_ascii U [] (by decide)
    simp only [normalizeSeverity, toJsString, e]
    decide

/-! ### Field resolver -/

theorem trim_nil : trim [] = [] := rfl

theorem normKey_nil (U : CaseTable) : normKey U [] = [] := by
  have h : U.lowerStr [] = [] := U.lower_ascii [] (by simp)
  simp [normKey, toLowerCase, h, trim_nil]

theorem findKey_cons_pos (U : CaseTable) (a : Str) (q : Str × JsVal) (rest : RawRecord)
    (hq : (normKey U q.1 == normKey U a) = true) : findKey U (q :: rest) a = some q.1 := by
  unfold findKey
  simp only [List.map_cons, List.find?_cons, hq]

theorem findKey_cons_neg (U : CaseTable) (a : Str) (q : Str × JsVal) (rest : RawRecord)
    (hq : (normKey U q.1 == normKey U a) = false) :
    findKey U (q :: rest) a = findKey U rest a := by
  unfold findKey
  simp only [List.map_cons, List.find?_cons, hq]

theorem getProp_cons_pos (q : Str × JsVal) (rest : RawRecord) :
    getProp (q :: rest) q.1 = q.2 := by
  unfold getProp
  simp only [List.find?_cons, beq_self_eq_true]

theorem getProp_cons_neg (q : Str × JsVal) (rest : RawRecord) (k : Str) (h : q.1 ≠ k) :
    getProp (q :: rest) k = getProp rest k := by
  have h' : (q.1 == k) = false := by simpa using h
  unfold getProp
  simp only [List.find?_cons, h']

/-- What `find` over the keys and the lookup under the key found amount to, in
terms of the first pair of the record whose key matches the alias. -/
theorem findKey_spec (U : CaseTable) (a : Str) (row : RawRecord) :
    (∀ p, row.find? (fun p => normKey U p.1 == normKey U a) = some p →
      findKey U row a = some p.1 ∧ getProp row p.1 = p.2 ∧ p ∈ row ∧
      row.any (fun p => normKey U p.1 == normKey U a) = true) ∧
    (row.find? (fun p => normKey U p.1 == normKey U a) = none →
      findKey U row a = none ∧ row.any (fun p => normKey U p.1 == normKey U a) = false) := by
  induction row with
  | nil =>
    constructor
    · intro p hp
      cases hp
    · intro _
      exact ⟨rfl, rfl⟩
  | cons q rest ih =>
    cases hq : (normKey U q.1 == normKey U a) with
    | true =>
      constructor
      · intro p hp
        simp only [List.find?_cons, hq] at hp
        cases hp
        refine ⟨findKey_cons_pos U a q rest hq, getProp_cons_pos q rest,
          List.mem_cons_self q rest, ?_⟩
        rw [List.any_cons, hq, Bool.true_or]
      · intro hp
        simp only [List.find?_cons, hq] at hp
        cases hp
    | false =>
      have hq' : ¬ (normKey U q.1 == normKey U a) = true := by simp [hq]
      constructor
      · intro p hp
        simp only [List.find?_cons, hq] at hp
        obtain ⟨h1, h2, h3, h4⟩ := ih.1 p hp
        have hn : (normKey U p.1 == normKey U a) = true := by
          have h0 := List.find?_some hp
          exact h0
        have hne : q.1 ≠ p.1 := by
          intro e
          rw [e, hn] at hq
          cases hq
        refine ⟨?_, ?_, List.mem_cons_of_mem _ h3, ?_⟩
        · rw [findKey_cons_neg U a q rest hq, h1]
        · rw [getProp_cons_neg q rest p.1 hne, h2]
        · rw [List.any_cons, h4, Bool.or_true]
      · intro hp
        simp only [List.find?_cons, hq] at hp
        obtain ⟨h1, h2⟩ := ih.2 hp
        constructor
        · rw [findKey_cons_neg U a q rest hq, h1]
        · rw [List.any_cons, hq, h2, Bool.or_false]

theorem norm_eq_resolveField (U : CaseTable) (row : RawRecord) (aliases : List Str)
    (h : (∀ a ∈ aliases, normKey U a ≠ []) ∨ (∀ p ∈ row, p.1 ≠ [])) :
    norm U row aliases = resolveField U row aliases := by
  induction aliases with
  | nil => rfl
  | cons a rest ih =>
    have h' : (∀ a ∈ rest, normKey U a ≠ []) ∨ (∀ p ∈ row, p.1 ≠ []) := by
      rcases h with h | h
      · exact Or.inl (fun b hb => h b (List.mem_cons_of_mem _ hb))
      · exact Or.inr h
    have ih' := ih h'
    have hs := findKey_spec U a row
    cases hf : row.find? (fun p => normKey U p.1 == normKey U a) with
    | none =>
      obtain ⟨h1, h2⟩ := hs.2 hf
      rw [norm, h1, ih']
      simp only [resolveField, List.find?, h2]
    | some p =>
      obtain ⟨h1, h2, h3, h4⟩ := hs.1 p hf
      have hn : normKey U p.1 = normKey U a := by
        have h0 : (normKey U p.1 == normKey U a) = true := by
          have h00 := List.find?_some hf
          exact h00
        exact eq_of_beq h0
      have hne : p.1 ≠ [] := by
        rcases h with h | h
        · intro e
          apply h a (List.mem_cons_self a rest)
          rw [← hn, e, normKey_nil]
        · exact h p h3
      have hemp : p.1.isEmpty = false := by
        cases hp1 : p.1 with
        | nil => exact absurd hp1 hne
        | cons c t => rfl
      rw [norm, h1]
      simp only [hemp, Bool.false_eq_true, if_false, h2]
      simp only [resolveField, List.find?, h4, hf]

/-- When no key of the record equals an alias after lowercasing and trimming
both, `norm` returns `"Unknown"`. -/
theorem norm_unknown (U : CaseTable) (row : RawRecord) (aliases : List Str)
    (h : ∀ a ∈ aliases, ∀ p ∈ row, normKey U p.1 ≠ normKey U a) :
    norm U row aliases = .str "Unknown".toList := by
  induction aliases with
  | nil => rfl
  | cons a rest ih =>
    have hnone : findKey U row a = none := by
      unfold findKey
      rw [List.find?_eq_none]
      intro k hk hh
      obtain ⟨p, hp, rfl⟩ := List.mem_map.1 hk
      exact h a (List.mem_cons_self a rest) p hp (eq_of_beq hh)
    rw [norm, hnone]
    exact ih (fun b hb => h b (List.mem_cons_of_mem _ hb))

/-- C3 (as stated, refuted): with the alias list `[""]` and a record that
stores `"x"` under the key `""`, the alias equals a key of the record, the value
stored under it is `"x"`, and `norm` returns `"Unknown"`. -/
theorem norm_empty_key_counterexample :
    resolveField asciiCase [([], .str "x".toList)] [[]] = .str "x".toList ∧
    norm asciiCase [([], .str "x".toList)] [[]] = .str "Unknown".toList := by
  decide

/-- C3 (amended): when no alias is blank, or the record has no empty key,
`norm` returns the value stored under the first alias, in alias-list order, that
equals some key of the record after lowercasing and trimming both; a record
that lacks the preferred alias and holds a secondary one yields the value of
the secondary one; a record that holds no alias yields `"Unknown"`. -/
theorem norm_first_alias (U : CaseTable) (row : RawRecord) (aliases : List Str)
    (h : (∀ a ∈ aliases, normKey U a ≠ []) ∨ (∀ p ∈ row, p.1 ≠ [])) :
    norm U row aliases = resolveField U row aliases ∧
    (∀ a b rest k v, aliases = a :: b :: rest →
      (∀ p ∈ row, normKey U p.1 ≠ normKey U a) →
      row.find? (fun p => normKey U p.1 == normKey U b) = some (k, v) →
      norm U row aliases = v) ∧
    ((∀ a ∈ aliases, ∀ p ∈ row, normKey U p.1 ≠ normKey U a) →
      norm U row aliases = .str "Unknown".toList) := by
  refine ⟨norm_eq_resolveField U row aliases h, ?_, norm_unknown U row aliases⟩
  intro a b rest k v hal ha hb
  rw [norm_eq_resolveField U row aliases h, hal]
  have h1 : row.any (fun p => normKey U p.1 == normKey U a) = false := by
    rw [List.any_eq_false]
    intro p hp hh
    exact ha p hp (eq_of_beq hh)
  have h2 : row.any (fun p => normKey U p.1 == normKey U b) = true :=
    ((findKey_spec U b row).1 (k, v) hb).2.2.2
  simp only [resolveField, List.find?, h1, h2, hb]

/-- A record without a `Bug Type` key and with a `type` key resolves the type
through the secondary alias; a record with neither resolves to `"Unknown"`. -/
theorem norm_first_alias_witness :
    norm asciiCase [(" TYPE ".toList, .str "UI".toList)]
        ["Bug Type".toList, "Type".toList, "Issue Type".toList] =
      resolveField asciiCase [(" TYPE ".toList, .str "UI".toList)]
        ["Bug Type".toList, "Type".toList, "Issue Type".toList] ∧
    norm asciiCase [(" TYPE ".toList, .str "UI".toList)]
        ["Bug Type".toList, "Type".toList, "Issue Type".toList] = .str "UI".toList :=
  have h := norm_first_alias asciiCase [(" TYPE ".toList, .str "UI".toList)]
    ["Bug Type".toList, "Type".toList, "Issue Type".toList] (Or.inr (by decide))
  ⟨h.1, h.2.1 _ _ _ " TYPE ".toList (.str "UI".toList) rfl (by decide) (by decide)⟩

/-! ### State predicates -/

theorem isActiveForTrend_ascii (U : CaseTable) (st : Str) (h : ∀ c ∈ st, c.toNat < 128) :
    isActiveForTrend U (issueWithState st) =
      (let s := trim (st.map Char.toUpper)
       includes s "ASSIGNED".toList || includes s "DEV".toList ||
        includes s "REOPEN".toList || includes s "PROGRESS".toList) := by
  simp only [isActiveForTrend, issueWithState, toJsString, toUpperCase_ascii U st h]

theorem isActiveForMatrix_ascii (U : CaseTable) (st : Str) (h : ∀ c ∈ st, c.toNat < 128) :
    isActiveForMatrix U (issueWithState st) =
      ["ASSIGNED".toList, "REOPEN".toList, "RFT".toList].contains (st.map Char.toUpper) := by
  simp only [isActiveForMatrix, issueWithState, toJsString, toUpperCase_ascii U st h]

theorem isActiveForTrend_sameLetters (U : CaseTable) (t w : Str)
    (hw : ∀ c ∈ w, c.toNat < 128) (h : SameLetters t w) :
    isActiveForTrend U (issueWithState t) = isActiveForTrend U (issueWithState w) := by
  simp only [isActiveForTrend, issueWithState, toJsString,
    toUpperCase_sameLetters U t w hw h, toUpperCase_ascii U w hw]

/-- C9 (the code at the failing input): the state "Re-open", which the comment
of the filter names as covered, does not pass the Active-for-trend filter in
any letter case, its uppercase form "RE-OPEN" holding none of the four markers;
"In Development" and "In Progress" pass in every letter case. -/
theorem isActiveForTrend_variants (U : CaseTable) :
    (∀ t : Str, SameLetters t "Re-open".toList →
      isActiveForTrend U (issueWithState t) = false) ∧
    isActiveForTrend U (issueWithState "Re-open".toList) = false ∧
    (∀ t : Str, SameLetters t "In Development".toList →
      isActiveForTrend U (issueWithState t) = true) ∧
    (∀ t : Str, SameLetters t "In Progress".toList →
      isActiveForTrend U (issueWithState t) = true) := by
  have e1 : isActiveForTrend U (issueWithState "Re-open".toList) = false := by
    rw [isActiveForTrend_ascii U _ (by decide)]
    decide
  have e2 : isActiveForTrend U (issueWithState "In Development".toList) = true := by
    rw [isActiveForTrend_ascii U _ (by decide)]
    decide
  have e3 : isActiveForTrend U (issueWithState "In Progress".toList) = true := by
    rw [isActiveForTrend_ascii U _ (by decide)]
    decide
  refine ⟨?_, e1, ?_, ?_⟩
  · intro t ht
    rw [isActiveForTrend_sameLetters U t _ (by decide) ht, e1]
  · intro t ht
    rw [isActiveForTrend_sameLetters U t _ (by decide) ht, e2]
  · intro t ht
    rw [isActiveForTrend_sameLetters U t _ (by decide) ht, e3]

/-- C10: the states "in development" and "In-Dev " both pass the
Active-for-trend filter and neither passes the Active-for-matrix filter; the
latter holds exactly when the uppercase form of the state, untrimmed, is one of
"ASSIGNED", "REOPEN", "RFT" (so "assigned" passes and "Assigned " does not). -/
theorem state_predicates_independent (U : CaseTable) :
    isActiveForTrend U (issueWithState "in development".toList) = true ∧
    isActiveForTrend U (issueWithState "In-Dev ".toList) = true ∧
    isActiveForMatrix U (issueWithState "in development".toList) = false ∧
    isActiveForMatrix U (issueWithState "In-Dev ".toList) = false ∧
    (∀ i : Issue, isActiveForMatrix U i = true ↔
      toUpperCase U (toJsString i.state) = "ASSIGNED".toList ∨
      toUpperCase U (toJsString i.state) = "REOPEN".toList ∨
      toUpperCase U (toJsString i.state) = "RFT".toList) ∧
    isActiveForMatrix U (issueWithState "assigned".toList) = true ∧
    isActiveForMatrix U (issueWithState "Assigned ".toList) = false := by
  refine ⟨?_, ?_, ?_, ?_, ?_, ?_, ?_⟩
  · rw [isActiveForTrend_ascii U _ (by decide)]
    decide
  · rw [isActiveForTrend_ascii U _ (by decide)]
    decide
  · rw [isActiveForMatrix_ascii U _ (by decide)]
    decide
  · rw [isActiveForMatrix_ascii U _ (by decide)]
    decide
  · intro i
    simp only [isActiveForMatrix, List.contains_iff_exists_mem_beq, List.mem_cons,
      List.mem_singleton, List.not_mem_nil, or_false, beq_iff_eq]
    constructor
    · rintro ⟨x, hx, rfl⟩
      exact hx
    · intro h
      exact ⟨_, h, rfl⟩
  · rw [isActiveForMatrix_ascii U _ (by decide)]
    decide
  · rw [isActiveForMatrix_ascii U _ (by decide)]
    decide

/-! ### Pivot matrix -/

/-- C1 (the code at the failing inputs): an issue of bug type "constructor" is
counted by `renderGenericMatrix` under the declared rows `["UI"]`, where it
matches no row: the grand total and the Minor column total are 1 while the row
total of the only declared row is 0. And with the bug type `__proto__`, declared
as the only row (as `renderBugMatrix` declares it when the data hold it), the
issue matches the row and is counted in the grand total while the row total of
its row is not a number and the row sum stays 0. -/
theorem renderGenericMatrix_inherited_key :
    (matchesDeclaredRow asciiCase ["UI".toList] .type
        (issueOfType "constructor".toList "Minor".toList) = false ∧
      ∃ m, renderGenericMatrix asciiCase [issueOfType "constructor".toList "Minor".toList]
          ["UI".toList] .type = some m ∧
        m.total = 1 ∧ colSum m = 1 ∧ m.colTotals .Minor = 1 ∧
        rowSum ["UI".toList] m = 0 ∧ m.rowTotals "UI".toList = 0) ∧
    (matchesDeclaredRow asciiCase ["__proto__".toList] .type
        (issueOfType "__proto__".toList "Minor".toList) = true ∧
      ∃ m, renderGenericMatrix asciiCase [issueOfType "__proto__".toList "Minor".toList]
          ["__proto__".toList] .type = some m ∧
        m.total = 1 ∧ colSum m = 1 ∧ m.cells "__proto__".toList .Minor = 1 ∧
        rowSum ["__proto__".toList] m = 0 ∧ shownRowTotal m "__proto__".toList = none) := by
  refine ⟨⟨by decide, _, rfl, ?_, ?_, ?_, ?_, ?_⟩, ⟨by decide, _, rfl, ?_, ?_, ?_, ?_, ?_⟩⟩ <;>
    decide

theorem sum_map_bump (l : List Str) (hl : l.Nodup) (f : Str → Nat) (k : Str) :
    (l.map (bump f k)).sum = (l.map f).sum + if k ∈ l then 1 else 0 := by
  induction l with
  | nil => rfl
  | cons a l ih =>
    have hnd := List.nodup_cons.1 hl
    rw [List.map_cons, List.sum_cons, List.map_cons, List.sum_cons, ih hnd.2]
    by_cases hak : a = k
    · subst hak
      have h1 : bump f a a = f a + 1 := by simp [bump]
      simp only [h1, hnd.1, if_false, List.mem_cons, true_or, if_true]
      omega
    · have h1 : bump f k a = f a := by simp [bump, hak]
      have h2 : (k ∈ a :: l) ↔ k ∈ l := by
        rw [List.mem_cons]
        constructor
        · rintro (h | h)
          · exact absurd h.symm hak
          · exact h
        · exact Or.inr
      simp only [h1, h2]
      omega

theorem colSum_bump (st : MatrixState) (sev : Severity) (cells : Str → Severity → Nat)
    (rt : Str → Nat) (n : Nat) :
    colSum { cells := cells, rowTotals := rt, colTotals := bump st.colTotals sev, total := n } =
      colSum st + 1 := by
  cases sev <;> simp [colSum, bump] <;> omega

/-- Away from the inherited names, the test `if (matrix[key])` is membership of
the key in the declared rows, and a key that passes gets all four increments. -/
theorem countIssue_plain (rows : List Str) (st : MatrixState) (key : Str) (sev : Severity)
    (hrows : ∀ r ∈ rows, r ∉ objectPrototypeKeys) (hkey : key ∉ objectPrototypeKeys) :
    countIssue rows st key sev =
      if rows.contains key then
        { cells := fun r => if r = key then bump (st.cells r) sev else st.cells r
          rowTotals := bump st.rowTotals key
          colTotals := bump st.colTotals sev
          total := st.total + 1 }
      else st := by
  have hp : protoKey ∈ objectPrototypeKeys := by decide
  have h1 : (key == protoKey) = false := by
    rw [beq_eq_false_iff_ne]
    intro e
    exact hkey (e ▸ hp)
  have h2 : rows.contains protoKey = false := by
    rw [List.contains_eq_any_beq, List.any_eq_false]
    intro r hr hh
    exact hrows r hr ((eq_of_beq hh) ▸ hp)
  have h3 : objectPrototypeKeys.contains key = false := by
    rw [List.contains_eq_any_beq, List.any_eq_false]
    intro r hr hh
    exact hkey ((eq_of_beq hh) ▸ hr)
  have h4 : (key != protoKey) = true := by simp [bne, h1]
  cases hc : rows.contains key with
  | true =>
    simp only [countIssue, matrixHas, isOwnRow, h1, hc, h4, Bool.false_eq_true, if_false,
      if_true, Bool.and_self, Bool.true_or]
  | false =>
    simp only [countIssue, matrixHas, h1, hc, h2, h3, Bool.false_eq_true, if_false]

/-- The key `renderGenericMatrix` counts an issue under is a declared row
exactly when the row value of the issue matches a declared row. -/
theorem matrixKey_spec (U : CaseTable) (rows : List Str) (rowKey : RowKey) (i : Issue)
    (hstr : rowKey = .state → ∃ v, i.state = .str v)
    (hval : toJsString (i.field rowKey) ∉ objectPrototypeKeys)
    (hrows : ∀ r ∈ rows, r ∉ objectPrototypeKeys) :
    ∃ key, matrixKey U rows rowKey i = some key ∧ key ∉ objectPrototypeKeys ∧
      rows.contains key = matchesDeclaredRow U rows rowKey i := by
  cases rowKey with
  | type => exact ⟨_, rfl, hval, rfl⟩
  | assignee => exact ⟨_, rfl, hval, rfl⟩
  | state =>
    obtain ⟨v, hv⟩ := hstr rfl
    have hval' : v ∉ objectPrototypeKeys := by
      simpa [Issue.field, hv, toJsString] using hval
    cases rows with
    | nil =>
      refine ⟨v, ?_, hval', ?_⟩
      · simp only [matrixKey, Issue.field, hv, toJsString]
      · simp [matchesDeclaredRow]
    | cons r rs =>
      have hm : matchesDeclaredRow U (r :: rs) .state i =
          (r :: rs).any (fun fs => toLowerCase U fs == toLowerCase U v) := by
        simp only [matchesDeclaredRow, hv, toJsString]
      cases hf : (r :: rs).find? (fun fs => toLowerCase U fs == toLowerCase U v) with
      | none =>
        have hk : matrixKey U (r :: rs) .state i = some v := by
          simp only [matrixKey, Issue.field, hv, hf]
        refine ⟨v, hk, hval', ?_⟩
        rw [hm]
        have hall := List.find?_eq_none.1 hf
        have h1 : (r :: rs).any (fun fs => toLowerCase U fs == toLowerCase U v) = false := by
          rw [List.any_eq_false]
          exact hall
        rw [h1, List.contains_eq_any_beq, List.any_eq_false]
        intro x hx hh
        have hxv : v = x := eq_of_beq hh
        exact hall x hx (by rw [hxv]; exact beq_self_eq_true _)
      | some fs =>
        have hfs : fs ∈ r :: rs := List.mem_of_find?_eq_some hf
        have hlow : (toLowerCase U fs == toLowerCase U v) = true := by
          have h0 := List.find?_some hf
          exact h0
        have hany : (r :: rs).any (fun fs => toLowerCase U fs == toLowerCase U v) = true := by
          rw [List.any_eq_true]
          exact ⟨fs, hfs, hlow⟩
        have hcont : (r :: rs).contains fs = true := by
          rw [List.contains_eq_any_beq, List.any_eq_true]
          exact ⟨fs, hfs, beq_self_eq_true _⟩
        cases hfe : fs with
        | nil =>
          have hvnil : v = [] := by
            apply U.lower_eq_nil
            have h1 : toLowerCase U fs = toLowerCase U v := eq_of_beq hlow
            rw [hfe] at h1
            have h2 : U.lowerStr [] = [] := U.lower_ascii [] (by simp)
            exact h1.symm.trans h2
          have hk : matrixKey U (r :: rs) .state i = some v := by
            simp only [matrixKey, Issue.field, hv, hf, hfe, List.isEmpty_nil, if_true]
          refine ⟨v, hk, hval', ?_⟩
          rw [hm, hany, hvnil, ← hfe, hcont]
        | cons c t =>
          have hk : matrixKey U (r :: rs) .state i = some fs := by
            simp only [matrixKey, Issue.field, hv, hf, hfe, List.isEmpty_cons,
              Bool.false_eq_true, if_false]
          refine ⟨fs, hk, hrows fs hfs, ?_⟩
          rw [hm, hany, hcont]

/-- The counting loop away from the inherited names: it returns counters, each
issue that matches a declared row adds one to the row sum, the column sum and
the grand total, and the issues that match no row leave the counters alone. -/
theorem countIssues_totals (U : CaseTable) (rows : List Str) (rowKey : RowKey)
    (hrows : ∀ r ∈ rows, r ∉ objectPrototypeKeys) (issues : List Issue) :
    ∀ st : MatrixState,
    (rowKey = .state → ∀ i ∈ issues, ∃ v, i.state = .str v) →
    (∀ i ∈ issues, toJsString (i.field rowKey) ∉ objectPrototypeKeys) →
    ∃ m, countIssues U rows rowKey st issues = some m ∧
      rowSum rows m = rowSum rows st + issues.countP (matchesDeclaredRow U rows rowKey) ∧
      colSum m = colSum st + issues.countP (matchesDeclaredRow U rows rowKey) ∧
      m.total = st.total + issues.countP (matchesDeclaredRow U rows rowKey) ∧
      countIssues U rows rowKey st (issues.filter (matchesDeclaredRow U rows rowKey)) =
        some m := by
  induction issues with
  | nil =>
    intro st _ _
    exact ⟨st, rfl, rfl, rfl, rfl, rfl⟩
  | cons i rest ih =>
    intro st hstr hval
    obtain ⟨key, hk, hkp, hkc⟩ := matrixKey_spec U rows rowKey i
      (fun e => hstr e i (List.mem_cons_self i rest))
      (hval i (List.mem_cons_self i rest)) hrows
    have hstr' : rowKey = .state → ∀ j ∈ rest, ∃ v, j.state = .str v :=
      fun e j hj => hstr e j (List.mem_cons_of_mem i hj)
    have hval' : ∀ j ∈ rest, toJsString (j.field rowKey) ∉ objectPrototypeKeys :=
      fun j hj => hval j (List.mem_cons_of_mem i hj)
    have hstep := countIssue_plain rows st key (normalizeSeverity U i.severity) hrows hkp
    cases hm : matchesDeclaredRow U rows rowKey i with
    | false =>
      rw [hkc, hm] at hstep
      simp only [Bool.false_eq_true, if_false] at hstep
      obtain ⟨m, h1, h2, h3, h4, h5⟩ := ih st hstr' hval'
      refine ⟨m, ?_, ?_, ?_, ?_, ?_⟩
      · rw [countIssues, hk]
        simp only [hstep]
        exact h1
      · rw [h2, List.countP_cons_of_neg _ _ (by simp [hm])]
      · rw [h3, List.countP_cons_of_neg _ _ (by simp [hm])]
      · rw [h4, List.countP_cons_of_neg _ _ (by simp [hm])]
      · rw [List.filter_cons_of_neg (by simp [hm])]
        exact h5
    | true =>
      rw [hkc, hm] at hstep
      simp only [if_true] at hstep
      obtain ⟨m, h1, h2, h3, h4, h5⟩ :=
        ih (countIssue rows st key (normalizeSeverity U i.severity)) hstr' hval'
      rw [hstep] at h2 h3 h4
      have hmem : key ∈ rows.dedup := by
        rw [List.mem_dedup]
        have hc : rows.contains key = true := by rw [hkc, hm]
        rw [List.contains_eq_any_beq, List.any_eq_true] at hc
        obtain ⟨x, hx, hxe⟩ := hc
        have e : key = x := eq_of_beq hxe
        rw [e]
        exact hx
      have hr : rowSum rows
          { cells := fun r => if r = key then bump (st.cells r) (normalizeSeverity U i.severity)
              else st.cells r
            rowTotals := bump st.rowTotals key
            colTotals := bump st.colTotals (normalizeSeverity U i.severity)
            total := st.total + 1 } = rowSum rows st + 1 := by
        simp only [rowSum]
        rw [sum_map_bump _ (List.nodup_dedup rows), if_pos hmem]
      refine ⟨m, ?_, ?_, ?_, ?_, ?_⟩
      · rw [countIssues, hk]
        exact h1
      · rw [h2, hr, List.countP_cons_of_pos _ _ hm]
        omega
      · rw [h3, colSum_bump, List.countP_cons_of_pos _ _ hm]
        omega
      · rw [h4, List.countP_cons_of_pos _ _ hm]
        simp only
        omega
      · rw [List.filter_cons_of_pos hm, countIssues, hk]
        exact h5

/-- The invariant of the pivot matrix away from the names a plain object
inherits: when no declared row and no row value of an issue is one of the
names of `Object.prototype` (and, in the state dimension, the states are
strings), `renderGenericMatrix` builds a matrix whose row totals, severity
column totals and grand total all sum to the number of issues that match a
declared row, and the issues that match no declared row change nothing. -/
theorem renderGenericMatrix_totals (U : CaseTable) (issues : List Issue) (rows : List Str)
    (rowKey : RowKey)
    (hrows : ∀ r ∈ rows, r ∉ objectPrototypeKeys)
    (hstr : rowKey = .state → ∀ i ∈ issues, ∃ v, i.state = .str v)
    (hval : ∀ i ∈ issues, toJsString (i.field rowKey) ∉ objectPrototypeKeys) :
    ∃ m, renderGenericMatrix U issues rows rowKey = some m ∧
      rowSum rows m = issues.countP (matchesDeclaredRow U rows rowKey) ∧
      colSum m = issues.countP (matchesDeclaredRow U rows rowKey) ∧
      m.total = issues.countP (matchesDeclaredRow U rows rowKey) ∧
      renderGenericMatrix U (issues.filter (matchesDeclaredRow U rows rowKey)) rows rowKey =
        some m := by
  obtain ⟨m, h1, h2, h3, h4, h5⟩ :=
    countIssues_totals U rows rowKey hrows issues MatrixState.init hstr hval
  refine ⟨m, h1, ?_, ?_, ?_, h5⟩
  · rw [h2]
    have : rowSum rows MatrixState.init = 0 := by
      simp [rowSum, MatrixState.init]
    omega
  · rw [h3]
    have : colSum MatrixState.init = 0 := rfl
    omega
  · rw [h4]
    have : MatrixState.init.total = 0 := rfl
    omega

/-! ### Calendar arithmetic -/

theorem yearFromDay_spec (d : Int) :
    dayFromYear (yearFromDay d) ≤ d ∧ d < dayFromYear (yearFromDay d + 1) := by
  unfold yearFromDay
  simp only
  have hy1 : 146097 * (d * 400 / 146097) ≤ d * 400 := Int.mul_ediv_self_le (by norm_num)
  have hy2 : d * 400 < 146097 * (d * 400 / 146097) + 146097 :=
    Int.lt_mul_ediv_self_add (by norm_num)
  generalize d * 400 / 146097 = q at hy1 hy2
  split_ifs with h1 h2
  · refine ⟨h1, ?_⟩
    unfold dayFromYear at h1 ⊢
    omega
  · exact ⟨h2, not_le.1 h1⟩
  · have e : 1970 + q - 1 + 1 = 1970 + q := by omega
    rw [e]
    refine ⟨?_, not_le.1 h2⟩
    unfold dayFromYear at h1 h2 ⊢
    omega

theorem dayFromYear_succ (y : Int) : dayFromYear (y + 1) = dayFromYear y + daysInYear y := by
  unfold dayFromYear daysInYear
  split_ifs <;> omega

theorem dayFromYear_mono {a b : Int} (h : a ≤ b) : dayFromYear a ≤ dayFromYear b := by
  unfold dayFromYear
  omega

theorem yearFromDay_unique (d y : Int) (h1 : dayFromYear y ≤ d) (h2 : d < dayFromYear (y + 1)) :
    yearFromDay d = y := by
  obtain ⟨h3, h4⟩ := yearFromDay_spec d
  by_contra hne
  rcases lt_or_gt_of_ne hne with h | h
  · have := dayFromYear_mono (show yearFromDay d + 1 ≤ y by omega)
    omega
  · have := dayFromYear_mono (show y + 1 ≤ yearFromDay d by omega)
    omega

theorem leapDay_cases (y : Int) :
    (leapDay y = 0 ∧ daysInYear y = 365) ∨ (leapDay y = 1 ∧ daysInYear y = 366) := by
  unfold leapDay daysInYear
  split_ifs <;> simp_all

theorem makeDay_eq (y m dd : Int) (hm : 1 ≤ m ∧ m ≤ 12) :
    makeDay y (m - 1) dd = dayFromYear y + monthStart (m - 1) (leapDay y) + dd - 1 := by
  have h1 : (m - 1) / 12 = 0 := by omega
  have h2 : (m - 1) % 12 = m - 1 := by omega
  simp only [makeDay, h1, h2, add_zero]

theorem month_table (y m : Int) (hm : 1 ≤ m ∧ m ≤ 12) :
    ∃ s n : Int, monthStart (m - 1) (leapDay y) = s ∧ daysInMonth y m = n ∧
      ((m = 1 ∧ s = 0 ∧ n = 31) ∨ (m = 2 ∧ s = 31 ∧ n = 28 + leapDay y) ∨
       (m = 3 ∧ s = 59 + leapDay y ∧ n = 31) ∨ (m = 4 ∧ s = 90 + leapDay y ∧ n = 30) ∨
       (m = 5 ∧ s = 120 + leapDay y ∧ n = 31) ∨ (m = 6 ∧ s = 151 + leapDay y ∧ n = 30) ∨
       (m = 7 ∧ s = 181 + leapDay y ∧ n = 31) ∨ (m = 8 ∧ s = 212 + leapDay y ∧ n = 31) ∨
       (m = 9 ∧ s = 243 + leapDay y ∧ n = 30) ∨ (m = 10 ∧ s = 273 + leapDay y ∧ n = 31) ∨
       (m = 11 ∧ s = 304 + leapDay y ∧ n = 30) ∨ (m = 12 ∧ s = 334 + leapDay y ∧ n = 31)) := by
  have h : m = 1 ∨ m = 2 ∨ m = 3 ∨ m = 4 ∨ m = 5 ∨ m = 6 ∨ m = 7 ∨ m = 8 ∨ m = 9 ∨
      m = 10 ∨ m = 11 ∨ m = 12 := by omega
  rcases h with h | h | h | h | h | h | h | h | h | h | h | h <;> subst h <;>
    exact ⟨_, _, rfl, rfl, by simp [monthStart, daysInMonth]⟩

theorem monthChain_eq (w L s n m : Int) (hL : L = 0 ∨ L = 1)
    (hlo : s ≤ w) (hhi : w < s + n)
    (ht : (m = 1 ∧ s = 0 ∧ n = 31) ∨
      (m = 2 ∧ s = 31 ∧ n = 28 + L) ∨
      (m = 3 ∧ s = 59 + L ∧ n = 31) ∨
      (m = 4 ∧ s = 90 + L ∧ n = 30) ∨
      (m = 5 ∧ s = 120 + L ∧ n = 31) ∨
      (m = 6 ∧ s = 151 + L ∧ n = 30) ∨
      (m = 7 ∧ s = 181 + L ∧ n = 31) ∨
      (m = 8 ∧ s = 212 + L ∧ n = 31) ∨
      (m = 9 ∧ s = 243 + L ∧ n = 30) ∨
      (m = 10 ∧ s = 273 + L ∧ n = 31) ∨
      (m = 11 ∧ s = 304 + L ∧ n = 30) ∨
      (m = 12 ∧ s = 334 + L ∧ n = 31)) :
    (if w < 31 then (0 : Int)
      else if w < 59 + L then 1
      else if w < 90 + L then 2
      else if w < 120 + L then 3
      else if w < 151 + L then 4
      else if w < 181 + L then 5
      else if w < 212 + L then 6
      else if w < 243 + L then 7
      else if w < 273 + L then 8
      else if w < 304 + L then 9
      else if w < 334 + L then 10
      else 11) = m - 1 := by
  rcases ht with h | h | h | h | h | h | h | h | h | h | h | h
  · obtain ⟨hm, hs, hn⟩ := h
    have c0 : w < 31 := by omega
    rw [if_pos c0]
    omega
  · obtain ⟨hm, hs, hn⟩ := h
    have c0 : ¬ (w < 31) := by omega
    have c1 : w < 59 + L := by omega
    rw [if_neg c0, if_pos c1]
    omega
  · obtain ⟨hm, hs, hn⟩ := h
    have c0 : ¬ (w < 31) := by omega
    have c1 : ¬ (w < 59 + L) := by omega
    have c2 : w < 90 + L := by omega
    rw [if_neg c0, if_neg c1, if_pos c2]
    omega
  · obtain ⟨hm, hs, hn⟩ := h
    have c0 : ¬ (w < 31) := by omega
    have c1 : ¬ (w < 59 + L) := by omega
    have c2 : ¬ (w < 90 + L) := by omega
    have c3 : w < 120 + L := by omega
    rw [if_neg c0, if_neg c1, if_neg c2, if_pos c3]
    omega
  · obtain ⟨hm, hs, hn⟩ := h
    have c0 : ¬ (w < 31) := by omega
    have c1 : ¬ (w < 59 + L) := by omega
    have c2 : ¬ (w < 90 + L) := by omega
    have c3 : ¬ (w < 120 + L) := by omega
    have c4 : w < 151 + L := by omega
    rw [if_neg c0, if_neg c1, if_neg c2, if_neg c3, if_pos c4]
    omega
  · obtain ⟨hm, hs, hn⟩ := h
    have c0 : ¬ (w < 31) := by omega
    have c1 : ¬ (w < 59 + L) := by omega
    have c2 : ¬ (w < 90 + L) := by omega
    have c3 : ¬ (w < 120 + L) := by omega
    have c4 : ¬ (w < 151 + L) := by omega
    have c5 : w < 181 + L := by omega
    rw [if_neg c0, if_neg c1, if_neg c2, if_neg c3, if_neg c4, if_pos c5]
    omega
  · obtain ⟨hm, hs, hn⟩ := h
    have c0 : ¬ (w < 31) := by omega
    have c1 : ¬ (w < 59 + L) := by omega
    have c2 : ¬ (w < 90 + L) := by omega
    have c3 : ¬ (w < 120 + L) := by omega
    have c4 : ¬ (w < 151 + L) := by omega
    have c5 : ¬ (w < 181 + L) := by omega
    have c6 : w < 212 + L := by omega
    rw [if_neg c0, if_neg c1, if_neg c2, if_neg c3, if_neg c4, if_neg c5, if_pos c6]
    omega
  · obtain ⟨hm, hs, hn⟩ := h
    have c0 : ¬ (w < 31) := by omega
    have c1 : ¬ (w < 59 + L) := by omega
    have c2 : ¬ (w < 90 + L) := by omega
    have c3 : ¬ (w < 120 + L) := by omega
    have c4 : ¬ (w < 151 + L) := by omega
    have c5 : ¬ (w < 181 + L) := by omega
    have c6 : ¬ (w < 212 + L) := by omega
    have c7 : w < 243 + L := by omega
    rw [if_neg c0, if_neg c1, if_neg c2, if_neg c3, if_neg c4, if_neg c5, if_neg c6, if_pos c7]
    omega
  · obtain ⟨hm, hs, hn⟩ := h
    have c0 : ¬ (w < 31) := by omega
    have c1 : ¬ (w < 59 + L) := by omega
    have c2 : ¬ (w < 90 + L) := by omega
    have c3 : ¬ (w < 120 + L) := by omega
    have c4 : ¬ (w < 151 + L) := by omega
    have c5 : ¬ (w < 181 + L) := by omega
    have c6 : ¬ (w < 212 + L) := by omega
    have c7 : ¬ (w < 243 + L) := by omega
    have c8 : w < 273 + L := by omega
    rw [if_neg c0, if_neg c1, if_neg c2, if_neg c3, if_neg c4, if_neg c5, if_neg c6, if_neg c7, if_pos c8]
    omega
  · obtain ⟨hm, hs, hn⟩ := h
    have c0 : ¬ (w < 31) := by omega
    have c1 : ¬ (w < 59 + L) := by omega
    have c2 : ¬ (w < 90 + L) := by omega
    have c3 : ¬ (w < 120 + L) := by omega
    have c4 : ¬ (w < 151 + L) := by omega
    have c5 : ¬ (w < 181 + L) := by omega
    have c6 : ¬ (w < 212 + L) := by omega
    have c7 : ¬ (w < 243 + L) := by omega
    have c8 : ¬ (w < 273 + L) := by omega
    have c9 : w < 304 + L := by omega
    rw [if_neg c0, if_neg c1, if_neg c2, if_neg c3, if_neg c4, if_neg c5, if_neg c6, if_neg c7, if_neg c8, if_pos c9]
    omega
  · obtain ⟨hm, hs, hn⟩ := h
    have c0 : ¬ (w < 31) := by omega
    have c1 : ¬ (w < 59 + L) := by omega
    have c2 : ¬ (w < 90 + L) := by omega
    have c3 : ¬ (w < 120 + L) := by omega
    have c4 : ¬ (w < 151 + L) := by omega
    have c5 : ¬ (w < 181 + L) := by omega
    have c6 : ¬ (w < 212 + L) := by omega
    have c7 : ¬ (w < 243 + L) := by omega
    have c8 : ¬ (w < 273 + L) := by omega
    have c9 : ¬ (w < 304 + L) := by omega
    have c10 : w < 334 + L := by omega
    rw [if_neg c0, if_neg c1, if_neg c2, if_neg c3, if_neg c4, if_neg c5, if_neg c6, if_neg c7, if_neg c8, if_neg c9, if_pos c10]
    omega
  · obtain ⟨hm, hs, hn⟩ := h
    have c0 : ¬ (w < 31) := by omega
    have c1 : ¬ (w < 59 + L) := by omega
    have c2 : ¬ (w < 90 + L) := by omega
    have c3 : ¬ (w < 120 + L) := by omega
    have c4 : ¬ (w < 151 + L) := by omega
    have c5 : ¬ (w < 181 + L) := by omega
    have c6 : ¬ (w < 212 + L) := by omega
    have c7 : ¬ (w < 243 + L) := by omega
    have c8 : ¬ (w < 273 + L) := by omega
    have c9 : ¬ (w < 304 + L) := by omega
    have c10 : ¬ (w < 334 + L) := by omega
    rw [if_neg c0, if_neg c1, if_neg c2, if_neg c3, if_neg c4, if_neg c5, if_neg c6, if_neg c7, if_neg c8, if_neg c9, if_neg c10]
    omega

theorem leapDay_01 (y : Int) : leapDay y = 0 ∨ leapDay y = 1 := by
  rcases leapDay_cases y with h | h
  · exact Or.inl h.1
  · exact Or.inr h.1

theorem monthFromDay_eq_chain (d : Int) :
    monthFromDay d =
      (if d - dayFromYear (yearFromDay d) < 31 then (0 : Int)
      else if d - dayFromYear (yearFromDay d) < 59 + leapDay (yearFromDay d) then 1
      else if d - dayFromYear (yearFromDay d) < 90 + leapDay (yearFromDay d) then 2
      else if d - dayFromYear (yearFromDay d) < 120 + leapDay (yearFromDay d) then 3
      else if d - dayFromYear (yearFromDay d) < 151 + leapDay (yearFromDay d) then 4
      else if d - dayFromYear (yearFromDay d) < 181 + leapDay (yearFromDay d) then 5
      else if d - dayFromYear (yearFromDay d) < 212 + leapDay (yearFromDay d) then 6
      else if d - dayFromYear (yearFromDay d) < 243 + leapDay (yearFromDay d) then 7
      else if d - dayFromYear (yearFromDay d) < 273 + leapDay (yearFromDay d) then 8
      else if d - dayFromYear (yearFromDay d) < 304 + leapDay (yearFromDay d) then 9
      else if d - dayFromYear (yearFromDay d) < 334 + leapDay (yearFromDay d) then 10
      else 11) := rfl

theorem civil_of_makeDay (y m dd : Int) (hm : 1 ≤ m ∧ m ≤ 12)
    (hd : 1 ≤ dd ∧ dd ≤ daysInMonth y m) :
    yearFromDay (makeDay y (m - 1) dd) = y ∧
    monthFromDay (makeDay y (m - 1) dd) = m - 1 ∧
    dateFromDay (makeDay y (m - 1) dd) = dd := by
  rw [makeDay_eq y m dd hm]
  obtain ⟨s, n, hs, hn, ht⟩ := month_table y m hm
  rw [hn] at hd
  rw [hs]
  have hsucc := dayFromYear_succ y
  have hy : yearFromDay (dayFromYear y + s + dd - 1) = y := by
    apply yearFromDay_unique
    · rcases leapDay_cases y with ⟨hl, _⟩ | ⟨hl, _⟩ <;> omega
    · rcases leapDay_cases y with ⟨hl, hdy⟩ | ⟨hl, hdy⟩ <;> omega
  have hmo : monthFromDay (dayFromYear y + s + dd - 1) = m - 1 := by
    rw [monthFromDay_eq_chain, hy]
    exact monthChain_eq _ (leapDay y) s n m (leapDay_01 y) (by omega) (by omega) ht
  refine ⟨hy, hmo, ?_⟩
  unfold dateFromDay
  simp only [hmo, hy, hs]
  omega

/-! ### Day keys -/

theorem toDigitsCore_succ (f n : Nat) (ds : List Char) :
    Nat.toDigitsCore 10 (f + 1) n ds =
      if n / 10 = 0 then Nat.digitChar (n % 10) :: ds
      else Nat.toDigitsCore 10 f (n / 10) (Nat.digitChar (n % 10) :: ds) := by
  simp [Nat.toDigitsCore]

theorem decimal_four (n : Nat) (h1 : 1000 ≤ n) (h2 : n ≤ 9999) :
    decimal n = [Nat.digitChar (n / 1000 % 10), Nat.digitChar (n / 100 % 10),
      Nat.digitChar (n / 10 % 10), Nat.digitChar (n % 10)] := by
  unfold decimal Nat.toDigits
  obtain ⟨k, rfl⟩ : ∃ k, n = k + 3 := ⟨n - 3, by omega⟩
  have e : k + 3 + 1 = (((k + 1) + 1) + 1) + 1 := by omega
  rw [e, toDigitsCore_succ, if_neg (by omega), toDigitsCore_succ, if_neg (by omega),
    toDigitsCore_succ, if_neg (by omega), toDigitsCore_succ, if_pos (by omega)]
  have e1 : (k + 3) / 10 / 10 / 10 % 10 = (k + 3) / 1000 % 10 := by omega
  have e2 : (k + 3) / 10 / 10 % 10 = (k + 3) / 100 % 10 := by omega
  rw [e1, e2]

theorem decimalInt_four (y : Int) (h1 : 1000 ≤ y) (h2 : y ≤ 9999) :
    decimalInt y = fourDigits y := by
  obtain ⟨n, rfl⟩ : ∃ n : Nat, y = n := ⟨y.toNat, by omega⟩
  have : decimalInt (n : Int) = decimal n := rfl
  rw [this, decimal_four n (by omega) (by omega)]
  simp [fourDigits]

theorem padStart2_two (k : Int) (h1 : 1 ≤ k) (h2 : k ≤ 31) :
    padStart2 (decimalInt k) = twoDigits k := by
  obtain ⟨n, rfl⟩ : ∃ n : Nat, k = n := ⟨k.toNat, by omega⟩
  have hn : n ≤ 31 := by omega
  have hn1 : 1 ≤ n := by omega
  interval_cases n <;> rfl

theorem timeClip_of_bounds (t : Int)
    (h : -8640000000000000 ≤ t ∧ t ≤ 8640000000000000) : timeClip t = some t := by
  simp only [timeClip, h, and_self, if_true]

/-- Local midnight of the day `D`, pinned to local noon, is still on the local
day `D`, whatever the offset of the zone. -/
theorem setHoursNoon_midnight (H : Host) (D : Int) (hD : -99999998 ≤ D ∧ D ≤ 99999998) :
    setHoursNoon H (timeClip (D * msPerDay - H.tza)) =
      some (D * msPerDay + 43200000 - H.tza) ∧
    localDay H (D * msPerDay + 43200000 - H.tza) = D := by
  have hz := H.tza_bound
  unfold msPerDay
  have h1 : timeClip (D * 86400000 - H.tza) = some (D * 86400000 - H.tza) :=
    timeClip_of_bounds _ (by omega)
  have h2 : (D * 86400000 - H.tza + H.tza) / 86400000 = D := by omega
  have h3 : timeClip (D * 86400000 + 43200000 - H.tza) =
      some (D * 86400000 + 43200000 - H.tza) := timeClip_of_bounds _ (by omega)
  constructor
  · rw [h1]
    simp only [setHoursNoon, msPerDay, h2, h3]
  · simp only [localDay, msPerDay]
    omega

theorem isoKey_of_civil (H : Host) (t Y M D : Int)
    (hy : getFullYear H t = Y) (hm : getMonth H t + 1 = M) (hd : getDate H t = D)
    (hY : 1000 ≤ Y ∧ Y ≤ 9999) (hM : 1 ≤ M ∧ M ≤ 12) (hD : 1 ≤ D ∧ D ≤ 31) :
    isoKey H t = paddedKey Y M D := by
  unfold isoKey paddedKey
  rw [hy, hm, hd, decimalInt_four Y hY.1 hY.2, padStart2_two M hM.1 (by omega),
    padStart2_two D hD.1 hD.2]

theorem dayFromYear_bounds (Y : Int) (h : 1000 ≤ Y ∧ Y ≤ 9999) :
    -354285 ≤ dayFromYear Y ∧ dayFromYear Y ≤ 2932532 := by
  unfold dayFromYear
  omega

theorem daysInMonth_le (y m : Int) : daysInMonth y m ≤ 31 := by
  unfold daysInMonth
  rcases leapDay_01 y with h | h <;> rw [h] <;> split_ifs <;> omega

theorem monthStart_bounds (y m : Int) (hm : 1 ≤ m ∧ m ≤ 12) :
    0 ≤ monthStart (m - 1) (leapDay y) ∧ monthStart (m - 1) (leapDay y) ≤ 335 := by
  obtain ⟨s, n, hs, _, ht⟩ := month_table y m hm
  rw [hs]
  rcases leapDay_01 y with h | h <;> omega

theorem splitDate_ne_nil (s : Str) : splitDate s ≠ [] := by
  cases s with
  | nil => simp [splitDate]
  | cons c s =>
    unfold splitDate
    split_ifs
    · simp
    · split <;> simp

/-- The date `new Date(year, month - 1, day)` of a valid day of a year from 1000
to 9999, pinned to noon, and the local calendar fields read back from it. -/
theorem noon_of_valid_day (H : Host) (Y m d : Int) (hY : 1000 ≤ Y ∧ Y ≤ 9999) (hm : 1 ≤ m ∧ m ≤ 12)
    (hd : 1 ≤ d ∧ d ≤ daysInMonth Y m) :
    ∃ t, setHoursNoon H (newDateYMD H (some Y) (some (m - 1)) (some d)) = some t ∧
      getFullYear H t = Y ∧ getMonth H t + 1 = m ∧ getDate H t = d ∧
      isoKey H t = paddedKey Y m d := by
  have hyr : (if 0 ≤ Y ∧ Y ≤ 99 then 1900 + Y else Y) = Y := by
    rw [if_neg (by omega)]
  have hb := dayFromYear_bounds Y hY
  have hms := monthStart_bounds Y m hm
  have hdm := daysInMonth_le Y m
  have hmd := makeDay_eq Y m d hm
  obtain ⟨c1, c2, c3⟩ := civil_of_makeDay Y m d hm hd
  obtain ⟨n1, n2⟩ := setHoursNoon_midnight H (makeDay Y (m - 1) d) (by omega)
  refine ⟨makeDay Y (m - 1) d * msPerDay + 43200000 - H.tza, ?_, ?_, ?_, ?_, ?_⟩
  · simp only [newDateYMD, hyr]
    exact n1
  · simp only [getFullYear, n2, c1]
  · simp only [getMonth, n2, c2]
    omega
  · simp only [getDate, n2, c3]
  · apply isoKey_of_civil
    · simp only [getFullYear, n2, c1]
    · simp only [getMonth, n2, c2]
      omega
    · simp only [getDate, n2, c3]
    · exact hY
    · exact hm
    · omega

/-! ### Date normalizer -/

theorem setHoursNoon_bounds (H : Host) (d : Option Int) (t : Int)
    (h : setHoursNoon H d = some t) :
    -8640000000000000 ≤ t ∧ t ≤ 8640000000000000 := by
  cases d with
  | none => simp [setHoursNoon] at h
  | some t0 =>
    simp only [setHoursNoon, timeClip] at h
    split_ifs at h with hb
    cases h
    exact hb

theorem parseToDate_falsy (H : Host) (v : JsVal) (h : truthy v = false) :
    parseToDate H v = none := by
  simp only [parseToDate, h, Bool.not_false, if_true]

theorem parseToDate_fallback (H : Host) (s : Str) (hne : s ≠ [])
    (hu : s ≠ "Unknown".toList) (hp : newDateString H (trim s) = none) :
    parseToDate H (.str s) = setHoursNoon H (dateFromParts H (splitDate (trim s))) := by
  have h1 : truthy (.str s) = true := by
    cases s with
    | nil => exact absurd rfl hne
    | cons c t => rfl
  have h2 : ¬ (JsVal.str s = JsVal.str "Unknown".toList) := by
    intro e
    exact hu (JsVal.str.inj e)
  simp only [parseToDate, h1, Bool.not_true, Bool.false_eq_true, if_false, h2, hp]

theorem newDateYMD_none (H : Host) (y m d : Option Int)
    (h : y = none ∨ m = none ∨ d = none) : newDateYMD H y m d = none := by
  rcases y with _ | y <;> rcases m with _ | m <;> rcases d with _ | d <;>
    simp_all [newDateYMD]

theorem text_of_three_parts (s : Str) (p0 p1 p2 : Str) (rest : List Str)
    (hs : splitDate (trim s) = p0 :: p1 :: p2 :: rest) :
    s ≠ [] ∧ s ≠ "Unknown".toList := by
  constructor
  · intro e
    rw [e] at hs
    have : splitDate (trim []) = [[]] := by decide
    rw [this] at hs
    cases hs
  · intro e
    rw [e] at hs
    have : splitDate (trim "Unknown".toList) = ["Unknown".toList] := by decide
    rw [this] at hs
    cases hs

/-- C5: `parseToDate` returns null or a date whose time value is in range, for
every raw value; it returns null for an absent or empty value and for
"Unknown"; and it returns null for every text that the direct parse rejects
and that splits into fewer than three parts or has a day, month or year part
that `parseInt` does not read as a number. -/
theorem parseToDate_null (H : Host) :
    (∀ v : JsVal, parseToDate H v = none ∨
      ∃ t, parseToDate H v = some t ∧ -8640000000000000 ≤ t ∧ t ≤ 8640000000000000) ∧
    (∀ v : JsVal, truthy v = false → parseToDate H v = none) ∧
    parseToDate H .undefined = none ∧
    parseToDate H .null = none ∧
    parseToDate H (.str []) = none ∧
    parseToDate H (.str "Unknown".toList) = none ∧
    (∀ s : Str, newDateString H (trim s) = none → (splitDate (trim s)).length < 3 →
      parseToDate H (.str s) = none) ∧
    (∀ (s p0 p1 p2 : Str) (rest : List Str), newDateString H (trim s) = none →
      splitDate (trim s) = p0 :: p1 :: p2 :: rest →
      (parseInt p0 = none ∨ parseInt p1 = none ∨ parseInt p2 = none) →
      parseToDate H (.str s) = none) := by
  refine ⟨?_, parseToDate_falsy H, parseToDate_falsy H _ rfl, parseToDate_falsy H _ rfl,
    parseToDate_falsy H _ rfl, ?_, ?_, ?_⟩
  · intro v
    cases hv : parseToDate H v with
    | none => exact Or.inl rfl
    | some t =>
      refine Or.inr ⟨t, rfl, ?_⟩
      by_cases h1 : truthy v = false
      · rw [parseToDate_falsy H v h1] at hv
        cases hv
      · have h1' : truthy v = true := by simpa using h1
        by_cases h2 : v = .str "Unknown".toList
        · simp only [parseToDate, h2, if_true, ite_self] at hv
          cases hv
        · cases v with
          | undefined => cases h1'
          | null => cases h1'
          | bool b =>
            simp only [parseToDate, h1', Bool.not_true, Bool.false_eq_true, if_false, h2] at hv
            exact setHoursNoon_bounds H _ t hv
          | num n =>
            simp only [parseToDate, h1', Bool.not_true, Bool.false_eq_true, if_false, h2] at hv
            exact setHoursNoon_bounds H _ t hv
          | str s =>
            simp only [parseToDate, h1', Bool.not_true, Bool.false_eq_true, if_false, h2] at hv
            split at hv
            · exact setHoursNoon_bounds H _ t hv
            · exact setHoursNoon_bounds H _ t hv
  · simp only [parseToDate, if_true, ite_self]
  · intro s hp hlen
    by_cases hne : s = []
    · rw [hne]
      exact parseToDate_falsy H _ rfl
    · by_cases hu : s = "Unknown".toList
      · rw [hu]
        simp only [parseToDate, if_true, ite_self]
      · rw [parseToDate_fallback H s hne hu hp]
        have hparts : dateFromParts H (splitDate (trim s)) = none := by
          match hsp : splitDate (trim s) with
          | [] => rfl
          | [_] => rfl
          | [_, _] => rfl
          | _ :: _ :: _ :: _ =>
            rw [hsp] at hlen
            simp only [List.length_cons] at hlen
            omega
        rw [hparts]
        rfl
  · intro s p0 p1 p2 rest hp hs hnan
    obtain ⟨hne, hu⟩ := text_of_three_parts s p0 p1 p2 rest hs
    rw [parseToDate_fallback H s hne hu hp, hs]
    have hparts : dateFromParts H (p0 :: p1 :: p2 :: rest) = none := by
      rcases hnan with h | h | h
      · exact newDateYMD_none H _ _ _ (Or.inr (Or.inr h))
      · exact newDateYMD_none H _ _ _ (Or.inr (Or.inl (by rw [h]; rfl)))
      · exact newDateYMD_none H _ _ _ (Or.inl (by rw [h]; rfl))
    rw [hparts]
    rfl

/-- The day-first fallback of `parseToDate`: a text that the direct parse
rejects and that splits into at least three numeric parts `d`, `m`, `y` is read
positionally as day `d`, 1-based month `m` and year `y`, a year below 100
standing for `2000 + y`; hence "d-m-yy" gives the same date as "d-m-20yy"; and
when the year so read is from 1000 to 9999 and `d` is a valid day of month `m`,
the day key is the zero-padded `YYYY-MM-DD` of that year, month and day. The
separators do not matter: only the parts do. -/
theorem parseToDate_day_first (H : Host) (s p0 p1 p2 : Str) (rest : List Str) (d m y : Int)
    (hp : newDateString H (trim s) = none)
    (hs : splitDate (trim s) = p0 :: p1 :: p2 :: rest)
    (hd : parseInt p0 = some d) (hm : parseInt p1 = some m) (hy : parseInt p2 = some y) :
    parseToDate H (.str s) =
      setHoursNoon H
        (newDateYMD H (some (if y < 100 then y + 2000 else y)) (some (m - 1)) (some d)) ∧
    (∀ (s' q0 q1 q2 : Str) (rest' : List Str), newDateString H (trim s') = none →
      splitDate (trim s') = q0 :: q1 :: q2 :: rest' →
      parseInt q0 = some d → parseInt q1 = some m → parseInt q2 = some (2000 + y) →
      0 ≤ y → y < 100 → parseToDate H (.str s') = parseToDate H (.str s)) ∧
    (∀ Y : Int, Y = (if y < 100 then y + 2000 else y) → 1000 ≤ Y → Y ≤ 9999 →
      1 ≤ m → m ≤ 12 → 1 ≤ d → d ≤ daysInMonth Y m →
      dayKeyOf H (.str s) = some (paddedKey Y m d)) := by
  have key : ∀ (s p0 p1 p2 : Str) (rest : List Str) (d m y : Int),
      newDateString H (trim s) = none → splitDate (trim s) = p0 :: p1 :: p2 :: rest →
      parseInt p0 = some d → parseInt p1 = some m → parseInt p2 = some y →
      parseToDate H (.str s) =
        setHoursNoon H
          (newDateYMD H (some (if y < 100 then y + 2000 else y)) (some (m - 1)) (some d)) := by
    intro s p0 p1 p2 rest d m y hp hs hd hm hy
    obtain ⟨hne, hu⟩ := text_of_three_parts s p0 p1 p2 rest hs
    rw [parseToDate_fallback H s hne hu hp, hs]
    simp only [dateFromParts, hd, hm, hy, Option.map_some']
  have h1 := key s p0 p1 p2 rest d m y hp hs hd hm hy
  refine ⟨h1, ?_, ?_⟩
  · intro s' q0 q1 q2 rest' hp' hs' hd' hm' hy' hy0 hy100
    rw [h1, key s' q0 q1 q2 rest' d m (2000 + y) hp' hs' hd' hm' hy']
    have e1 : (if 2000 + y < 100 then 2000 + y + 2000 else 2000 + y) = 2000 + y := by
      rw [if_neg (by omega)]
    have e2 : (if y < 100 then y + 2000 else y) = 2000 + y := by
      rw [if_pos hy100]
      omega
    rw [e1, e2]
  · intro Y hY h1000 h9999 hm1 hm12 hd1 hdn
    obtain ⟨t, ht, _, _, _, hk⟩ := noon_of_valid_day H Y m d ⟨h1000, h9999⟩ ⟨hm1, hm12⟩
      ⟨hd1, hdn⟩
    rw [dayKeyOf, h1, ← hY, ht]
    simp only [Option.map_some', hk]

/-- The texts "25.3.24", "25/3/24" and "25-3-2024" on a host whose parser
reads three numeric parts month first and so rejects them (25 is no month): all
are 25 March 2024, with the day key "2024-03-25". -/
theorem parseToDate_day_first_witness :
    dayKeyOf monthFirstHost (.str "25.3.24".toList) = some (paddedKey 2024 3 25) ∧
    parseToDate monthFirstHost (.str "25-3-2024".toList) =
      parseToDate monthFirstHost (.str "25.3.24".toList) ∧
    dayKeyOf monthFirstHost (.str "25/3/24".toList) = some "2024-03-25".toList :=
  have h := parseToDate_day_first monthFirstHost "25.3.24".toList "25".toList "3".toList
    "24".toList [] 25 3 24 (by decide) (by decide) (by decide) (by decide) (by decide)
  have h' := parseToDate_day_first monthFirstHost "25/3/24".toList "25".toList "3".toList
    "24".toList [] 25 3 24 (by decide) (by decide) (by decide) (by decide) (by decide)
  ⟨h.2.2 2024 (by decide) (by decide) (by decide) (by decide) (by decide) (by decide)
      (by decide),
    h.2.1 "25-3-2024".toList "25".toList "3".toList "2024".toList [] (by decide) (by decide)
      (by decide) (by decide) (by decide) (by decide) (by decide),
    (h'.2.2 2024 (by decide) (by decide) (by decide) (by decide) (by decide) (by decide)
      (by decide)).trans (by decide)⟩

/-- The date `new Date(year, month - 1, day)` of a valid day of a year beyond 99
whose days are in the range of time values, pinned to noon, and the local
calendar fields read back from it. -/
theorem noon_fields (H : Host) (Y m d : Int) (hY : ¬ (0 ≤ Y ∧ Y ≤ 99))
    (hb : -99999000 ≤ dayFromYear Y ∧ dayFromYear Y ≤ 99999000) (hm : 1 ≤ m ∧ m ≤ 12)
    (hd : 1 ≤ d ∧ d ≤ daysInMonth Y m) :
    ∃ t, setHoursNoon H (newDateYMD H (some Y) (some (m - 1)) (some d)) = some t ∧
      getFullYear H t = Y ∧ getMonth H t + 1 = m ∧ getDate H t = d := by
  have hyr : (if 0 ≤ Y ∧ Y ≤ 99 then 1900 + Y else Y) = Y := by
    rw [if_neg hY]
  have hms := monthStart_bounds Y m hm
  have hdm := daysInMonth_le Y m
  have hmd := makeDay_eq Y m d hm
  obtain ⟨c1, c2, c3⟩ := civil_of_makeDay Y m d hm hd
  obtain ⟨n1, n2⟩ := setHoursNoon_midnight H (makeDay Y (m - 1) d) (by omega)
  refine ⟨makeDay Y (m - 1) d * msPerDay + 43200000 - H.tza, ?_, ?_, ?_, ?_⟩
  · simp only [newDateYMD, hyr]
    exact n1
  · simp only [getFullYear, n2, c1]
  · simp only [getMonth, n2, c2]
    omega
  · simp only [getDate, n2, c3]

/-- On every host whose direct parse rejects the text "25-3-124", in whatever
time zone, `parseToDate` reads it as 25 March of the year 124 and its day key
is "124-03-25", the year with three digits. -/
theorem dayKeyOf_year_124 (H : Host)
    (hp : newDateString H (trim "25-3-124".toList) = none) :
    dayKeyOf H (.str "25-3-124".toList) = some "124-03-25".toList := by
  have h := (parseToDate_day_first H "25-3-124".toList "25".toList "3".toList "124".toList []
    25 3 124 hp (by decide) (by decide) (by decide) (by decide)).1
  have e : (if (124 : Int) < 100 then (124 : Int) + 2000 else 124) = 124 := by decide
  rw [e] at h
  obtain ⟨t, ht, f1, f2, f3⟩ := noon_fields H 124 3 25 (by decide) (by decide) (by decide)
    (by decide)
  have e2 : ((3 : Int) - 1) = 2 := by decide
  rw [e2] at ht
  have hm : getMonth H t + 1 = 3 := f2
  rw [dayKeyOf, h]
  have e3 : ((3 : Int) - 1) = 2 := by decide
  simp only [e3, ht, Option.map_some', isoKey, f1, hm, f3]
  decide

/-- C6 (the code at the failing input): the text "25-3-124" is rejected by the
direct parse, both of a host that knows the standard form only and of a host
that reads three numeric parts month first (25 is no month); it splits into the
numeric parts 25, 3 and 124, and 25 is a valid day of month 3. `parseToDate`
reads it as 25 March 124 and the day key built from it is "124-03-25", with a
three-digit year, where the zero-padded `YYYY-MM-DD` of that date is
"0124-03-25". (A month-first host reads "5-3-124" directly, as 3 May 124.) -/
theorem isoKey_year_unpadded :
    newDateString utcHost (trim "25-3-124".toList) = none ∧
    newDateString monthFirstHost (trim "25-3-124".toList) = none ∧
    splitDate (trim "25-3-124".toList) = ["25".toList, "3".toList, "124".toList] ∧
    parseInt "25".toList = some 25 ∧ parseInt "3".toList = some 3 ∧
    parseInt "124".toList = some 124 ∧
    (1 ≤ (25 : Int) ∧ (25 : Int) ≤ daysInMonth 124 3) ∧
    dayKeyOf utcHost (.str "25-3-124".toList) = some "124-03-25".toList ∧
    dayKeyOf monthFirstHost (.str "25-3-124".toList) = some "124-03-25".toList ∧
    paddedKey 124 3 25 = "0124-03-25".toList ∧
    dayKeyOf monthFirstHost (.str "25-3-124".toList) ≠ some (paddedKey 124 3 25) ∧
    dayKeyOf monthFirstHost (.str "5-3-124".toList) = some "124-05-03".toList := by
  decide

/-- On a host on UTC whose parser knows the date-only standard form only, the
four representations of 5 March 2024 all have the day key "2024-03-05". -/
theorem dayKeyOf_utc :
    dayKeyOf utcHost (.num 45356) = some "2024-03-05".toList ∧
    dayKeyOf utcHost (.str "2024-03-05".toList) = some "2024-03-05".toList ∧
    dayKeyOf utcHost (.str "05-03-2024".toList) = some "2024-03-05".toList ∧
    dayKeyOf utcHost (.str "5.3.2024".toList) = some "2024-03-05".toList := by
  decide

/-- The day key of the serial 45356 on a host whose zone is west of Greenwich:
the serial is turned into UTC midnight of 5 March 2024, which is the evening of
4 March there, and the pin to local noon keeps that local day. -/
theorem dayKeyOf_serial_west (H : Host) (hz : H.tza < 0) :
    dayKeyOf H (.num 45356) = some "2024-03-04".toList := by
  have hb := H.tza_bound
  have h0 : parseToDate H (.num 45356) =
      setHoursNoon H (timeClip ((45356 - 25569) * 86400 * 1000)) := rfl
  have h1 : timeClip ((45356 - 25569) * 86400 * 1000) = some 1709596800000 := by decide
  have h2 : (1709596800000 + H.tza) / msPerDay = 19786 := by
    unfold msPerDay
    omega
  have h3 : timeClip (19786 * msPerDay + 43200000 - H.tza) =
      some (19786 * msPerDay + 43200000 - H.tza) :=
    timeClip_of_bounds _ (by unfold msPerDay; omega)
  have h4 : localDay H (19786 * msPerDay + 43200000 - H.tza) = 19786 := by
    unfold localDay msPerDay
    omega
  rw [dayKeyOf, h0, h1]
  simp only [setHoursNoon, h2, h3, Option.map_some', isoKey, getFullYear, getMonth, getDate, h4]
  decide

/-- C4 (the code at the failing input): on a host five hours west of Greenwich
the serial 45356 and the text "2024-03-05" get the day key "2024-03-04", while
the texts "05-03-2024" and "5.3.2024" get "2024-03-05". -/
theorem dayKeyOf_west :
    dayKeyOf westHost (.num 45356) = some "2024-03-04".toList ∧
    dayKeyOf westHost (.str "2024-03-05".toList) = some "2024-03-04".toList ∧
    dayKeyOf westHost (.str "05-03-2024".toList) = some "2024-03-05".toList ∧
    dayKeyOf westHost (.str "5.3.2024".toList) = some "2024-03-05".toList := by
  decide

/-! ### Trend aggregator -/

theorem isoKey_not_inherited (H : Host) (t : Int) : isoKey H t ∉ objectPrototypeKeys := by
  have hmem : '-' ∈ isoKey H t := by
    unfold isoKey
    exact List.mem_append_right _ (List.mem_cons_self _ _)
  intro h
  have hall : ∀ k ∈ objectPrototypeKeys, '-' ∉ k := by decide
  exact hall _ h hmem

theorem countOf_cons (p : Str × Nat) (td : List (Str × Nat)) (k : Str) :
    countOf (p :: td) k = if p.1 = k then p.2 else countOf td k := by
  unfold countOf
  by_cases h : p.1 = k
  · have hb : (p.1 == k) = true := by simpa using h
    simp only [List.find?_cons, hb, if_pos h]
  · have hb : (p.1 == k) = false := by simpa using h
    simp only [List.find?_cons, hb, if_neg h]

theorem countOf_addCount (td : List (Str × Nat)) (k k' : Str) :
    countOf (addCount td k) k' = countOf td k' + if k = k' then 1 else 0 := by
  induction td with
  | nil =>
    rw [addCount, countOf_cons]
    simp [countOf]
  | cons p rest ih =>
    obtain ⟨q, n⟩ := p
    rw [addCount]
    by_cases hq : q = k
    · rw [if_pos hq, countOf_cons, countOf_cons]
      subst hq
      by_cases hk : q = k'
      · simp [hk]
      · simp [hk]
    · rw [if_neg hq, countOf_cons, countOf_cons, ih]
      by_cases hk : q = k'
      · have : ¬ k = k' := fun e => hq (hk.trans e.symm)
        simp [hk, this]
      · simp [hk]

theorem keys_addCount (td : List (Str × Nat)) (k x : Str) :
    x ∈ (addCount td k).map Prod.fst ↔ x = k ∨ x ∈ td.map Prod.fst := by
  induction td with
  | nil => simp [addCount]
  | cons p rest ih =>
    obtain ⟨q, n⟩ := p
    rw [addCount]
    by_cases hq : q = k
    · rw [if_pos hq]
      subst hq
      simp
    · rw [if_neg hq, List.map_cons, List.mem_cons, ih, List.map_cons, List.mem_cons]
      tauto

theorem nodup_addCount (td : List (Str × Nat)) (k : Str)
    (h : (td.map Prod.fst).Nodup) : ((addCount td k).map Prod.fst).Nodup := by
  induction td with
  | nil => simp [addCount]
  | cons p rest ih =>
    obtain ⟨q, n⟩ := p
    rw [addCount]
    rw [List.map_cons, List.nodup_cons] at h
    by_cases hq : q = k
    · rw [if_pos hq, List.map_cons, List.nodup_cons]
      exact h
    · rw [if_neg hq, List.map_cons, List.nodup_cons]
      refine ⟨?_, ih h.2⟩
      rw [keys_addCount]
      rintro (e | e)
      · exact hq e
      · exact h.1 e

theorem sum_addCount (td : List (Str × Nat)) (k : Str) :
    ((addCount td k).map Prod.snd).sum = (td.map Prod.snd).sum + 1 := by
  induction td with
  | nil => simp [addCount]
  | cons p rest ih =>
    obtain ⟨q, n⟩ := p
    rw [addCount]
    by_cases hq : q = k
    · rw [if_pos hq]
      simp only [List.map_cons, List.sum_cons]
      omega
    · rw [if_neg hq]
      simp only [List.map_cons, List.sum_cons, ih]
      omega

theorem positive_addCount (td : List (Str × Nat)) (k : Str) (h : PositiveCounts td) :
    PositiveCounts (addCount td k) := by
  induction td with
  | nil =>
    intro p hp
    simp only [addCount, List.mem_singleton] at hp
    rw [hp]
    exact Nat.one_pos
  | cons p rest ih =>
    obtain ⟨q, n⟩ := p
    have hrest : PositiveCounts rest := fun x hx => h x (List.mem_cons_of_mem _ hx)
    intro x hx
    rw [addCount] at hx
    by_cases hq : q = k
    · rw [if_pos hq, List.mem_cons] at hx
      rcases hx with e | e
      · rw [e]
        exact Nat.succ_pos _
      · exact hrest x e
    · rw [if_neg hq, List.mem_cons] at hx
      rcases hx with e | e
      · rw [e]
        exact h (q, n) (List.mem_cons_self _ _)
      · exact ih hrest x e

theorem mem_keys_iff_countOf (td : List (Str × Nat)) (h : PositiveCounts td) (k : Str) :
    k ∈ td.map Prod.fst ↔ countOf td k ≠ 0 := by
  induction td with
  | nil => simp [countOf]
  | cons p rest ih =>
    have hrest : PositiveCounts rest := fun x hx => h x (List.mem_cons_of_mem _ hx)
    have hp := h p (List.mem_cons_self _ _)
    rw [List.map_cons, List.mem_cons, countOf_cons, ih hrest]
    by_cases hk : p.1 = k
    · rw [if_pos hk]
      constructor
      · intro _
        omega
      · intro _
        exact Or.inl hk.symm
    · rw [if_neg hk]
      constructor
      · rintro (e | e)
        · exact absurd e.symm hk
        · exact e
      · exact Or.inr

theorem sum_countOf_keys (td : List (Str × Nat)) (h : (td.map Prod.fst).Nodup) :
    ((td.map Prod.fst).map (countOf td)).sum = (td.map Prod.snd).sum := by
  induction td with
  | nil => rfl
  | cons p rest ih =>
    rw [List.map_cons, List.nodup_cons] at h
    simp only [List.map_cons, List.sum_cons, List.map_map]
    have h1 : countOf (p :: rest) p.1 = p.2 := by
      rw [countOf_cons, if_pos rfl]
    have h2 : List.map (countOf (p :: rest) ∘ Prod.fst) rest =
        List.map (countOf rest ∘ Prod.fst) rest := by
      apply List.map_congr_left
      intro x hx
      simp only [Function.comp]
      rw [countOf_cons, if_neg]
      intro e
      apply h.1
      rw [e]
      exact List.mem_map_of_mem _ hx
    rw [h1, h2, ← ih h.2, List.map_map]

/-- The aggregation loop, from the object `td` on: the keys stay distinct, the
counts stay positive, the count of each key grows by the number of issues with
that day key, and the sum of the counts by the number of issues with a date. -/
theorem foldl_trendStep (H : Host) (l : List Issue) :
    ∀ td : List (Str × Nat), (td.map Prod.fst).Nodup → PositiveCounts td →
      (((l.foldl (trendStep H) td).map Prod.fst).Nodup ∧
       PositiveCounts (l.foldl (trendStep H) td) ∧
       (∀ k, countOf (l.foldl (trendStep H) td) k =
          countOf td k + l.countP (fun i => dayKeyOf H i.foundDate == some k)) ∧
       ((l.foldl (trendStep H) td).map Prod.snd).sum =
          (td.map Prod.snd).sum + l.countP (fun i => (parseToDate H i.foundDate).isSome)) := by
  induction l with
  | nil =>
    intro td h1 h2
    exact ⟨h1, h2, fun _ => rfl, rfl⟩
  | cons i rest ih =>
    intro td h1 h2
    rw [List.foldl_cons]
    cases hp : parseToDate H i.foundDate with
    | none =>
      have hstep : trendStep H td i = td := by simp only [trendStep, hp]
      obtain ⟨a, b, c, d⟩ := ih td h1 h2
      rw [hstep]
      refine ⟨a, b, ?_, ?_⟩
      · intro k
        rw [c k, List.countP_cons_of_neg]
        simp [dayKeyOf, hp]
      · rw [d, List.countP_cons_of_neg]
        simp [hp]
    | some t =>
      have hstep : trendStep H td i = addCount td (isoKey H t) := by
        simp only [trendStep, hp]
      obtain ⟨a, b, c, d⟩ := ih (addCount td (isoKey H t)) (nodup_addCount td _ h1)
        (positive_addCount td _ h2)
      rw [hstep]
      refine ⟨a, b, ?_, ?_⟩
      · intro k
        rw [c k, countOf_addCount]
        by_cases hk : isoKey H t = k
        · rw [if_pos hk, List.countP_cons_of_pos]
          · omega
          · simp [dayKeyOf, hp, hk]
        · rw [if_neg hk, List.countP_cons_of_neg]
          · omega
          · simp [dayKeyOf, hp, hk]
      · rw [d, sum_addCount, List.countP_cons_of_pos]
        · omega
        · simp [hp]

theorem countP_activeTrend (U : CaseTable) (issues : List Issue) (p : Issue → Bool) :
    (activeTrendIssues U issues).countP p =
      issues.countP (fun i => isActiveForTrend U i && p i) := by
  unfold activeTrendIssues
  rw [List.countP_filter]
  apply List.countP_congr
  intro i _
  simp [Bool.and_comm]

/-- C8: for every issue sequence and every day key `k`, the count that
`trendData` holds for `k` is the number of issues that pass the
Active-for-trend filter and whose found date normalizes to the day key `k`;
a key is listed exactly when there is such an issue (no zero-fill); `lineData`
gives these counts in the order of `sortedIsoDates`; the counts sum to the
number of Active-for-trend issues whose found date parses; and an issue whose
found date is "Unknown" has no day key, so it adds to no entry. -/
theorem trendData_counts (U : CaseTable) (H : Host) (issues : List Issue) :
    (∀ k, countOf (trendData U H issues) k =
      issues.countP (fun i => isActiveForTrend U i && (dayKeyOf H i.foundDate == some k))) ∧
    (∀ k, k ∈ sortedIsoDates U H issues ↔
      ∃ i ∈ issues, isActiveForTrend U i = true ∧ dayKeyOf H i.foundDate = some k) ∧
    lineData U H issues = (sortedIsoDates U H issues).map (fun k =>
      issues.countP (fun i => isActiveForTrend U i && (dayKeyOf H i.foundDate == some k))) ∧
    (lineData U H issues).sum =
      issues.countP (fun i => isActiveForTrend U i && (parseToDate H i.foundDate).isSome) ∧
    (∀ i : Issue, i.foundDate = .str "Unknown".toList → dayKeyOf H i.foundDate = none) := by
  obtain ⟨hnd, hpos, hcount, hsum⟩ :=
    foldl_trendStep H (activeTrendIssues U issues) [] List.nodup_nil
      (fun p hp => absurd hp (List.not_mem_nil p))
  have hnd' : ((trendData U H issues).map Prod.fst).Nodup := hnd
  have hpos' : PositiveCounts (trendData U H issues) := hpos
  have hsum' : ((trendData U H issues).map Prod.snd).sum =
      ([].map Prod.snd : List Nat).sum +
        (activeTrendIssues U issues).countP (fun i => (parseToDate H i.foundDate).isSome) :=
    hsum
  have hc : ∀ k, countOf (trendData U H issues) k =
      issues.countP (fun i => isActiveForTrend U i && (dayKeyOf H i.foundDate == some k)) := by
    intro k
    unfold trendData
    rw [hcount k, countP_activeTrend]
    simp [countOf]
  have hperm : (sortedIsoDates U H issues).Perm ((trendData U H issues).map Prod.fst) :=
    List.perm_insertionSort _ _
  refine ⟨hc, ?_, ?_, ?_, ?_⟩
  · intro k
    rw [hperm.mem_iff, mem_keys_iff_countOf _ hpos', hc k]
    constructor
    · intro h
      have hgt : 0 < issues.countP
          (fun i => isActiveForTrend U i && (dayKeyOf H i.foundDate == some k)) := by omega
      obtain ⟨i, hi, hp⟩ := List.countP_pos_iff.1 hgt
      refine ⟨i, hi, ?_⟩
      simpa using hp
    · rintro ⟨i, hi, h1, h2⟩
      have : 0 < issues.countP
          (fun i => isActiveForTrend U i && (dayKeyOf H i.foundDate == some k)) :=
        List.countP_pos_iff.2 ⟨i, hi, by simp [h1, h2]⟩
      omega
  · unfold lineData
    apply List.map_congr_left
    intro k _
    exact hc k
  · unfold lineData
    rw [(hperm.map _).sum_eq, sum_countOf_keys _ hnd', hsum', countP_activeTrend]
    simp
  · intro i hi
    rw [hi]
    simp only [dayKeyOf, parseToDate, if_true, ite_self, Option.map_none']

/-- Every day within a year falls in one of the twelve months. -/
theorem month_of_dayWithinYear (w L : Int) (h0 : 0 ≤ w)
    (h1 : w < 365 + L) :
    ∃ m s n : Int, s ≤ w ∧ w < s + n ∧
      ((m = 1 ∧ s = 0 ∧ n = 31) ∨
       (m = 2 ∧ s = 31 ∧ n = 28 + L) ∨
       (m = 3 ∧ s = 59 + L ∧ n = 31) ∨
       (m = 4 ∧ s = 90 + L ∧ n = 30) ∨
       (m = 5 ∧ s = 120 + L ∧ n = 31) ∨
       (m = 6 ∧ s = 151 + L ∧ n = 30) ∨
       (m = 7 ∧ s = 181 + L ∧ n = 31) ∨
       (m = 8 ∧ s = 212 + L ∧ n = 31) ∨
       (m = 9 ∧ s = 243 + L ∧ n = 30) ∨
       (m = 10 ∧ s = 273 + L ∧ n = 31) ∨
       (m = 11 ∧ s = 304 + L ∧ n = 30) ∨
       (m = 12 ∧ s = 334 + L ∧ n = 31)) := by
  by_cases c0 : w < 31
  · exact ⟨1, 0, 31, by omega, by omega, by simp⟩
  by_cases c1 : w < 59 + L
  · exact ⟨2, 31, 28 + L, by omega, by omega, by simp⟩
  by_cases c2 : w < 90 + L
  · exact ⟨3, 59 + L, 31, by omega, by omega, by simp⟩
  by_cases c3 : w < 120 + L
  · exact ⟨4, 90 + L, 30, by omega, by omega, by simp⟩
  by_cases c4 : w < 151 + L
  · exact ⟨5, 120 + L, 31, by omega, by omega, by simp⟩
  by_cases c5 : w < 181 + L
  · exact ⟨6, 151 + L, 30, by omega, by omega, by simp⟩
  by_cases c6 : w < 212 + L
  · exact ⟨7, 181 + L, 31, by omega, by omega, by simp⟩
  by_cases c7 : w < 243 + L
  · exact ⟨8, 212 + L, 31, by omega, by omega, by simp⟩
  by_cases c8 : w < 273 + L
  · exact ⟨9, 243 + L, 30, by omega, by omega, by simp⟩
  by_cases c9 : w < 304 + L
  · exact ⟨10, 273 + L, 31, by omega, by omega, by simp⟩
  by_cases c10 : w < 334 + L
  · exact ⟨11, 304 + L, 30, by omega, by omega, by simp⟩
  exact ⟨12, 334 + L, 31, by omega, by omega, by simp⟩

/-- Every day number is `makeDay` of its own year, month and day of the month,
which form a valid calendar date. -/
theorem civil_decomp (d : Int) :
    ∃ m dd : Int, 1 ≤ m ∧ m ≤ 12 ∧ 1 ≤ dd ∧ dd ≤ daysInMonth (yearFromDay d) m ∧
      d = makeDay (yearFromDay d) (m - 1) dd ∧
      monthFromDay d = m - 1 ∧ dateFromDay d = dd := by
  obtain ⟨h1, h2⟩ := yearFromDay_spec d
  have hsucc := dayFromYear_succ (yearFromDay d)
  have hL := leapDay_cases (yearFromDay d)
  have hw : d - dayFromYear (yearFromDay d) < 365 + leapDay (yearFromDay d) := by
    rcases hL with ⟨a, b⟩ | ⟨a, b⟩ <;> omega
  obtain ⟨m, s, n, hlo, hhi, ht⟩ := month_of_dayWithinYear (d - dayFromYear (yearFromDay d))
    (leapDay (yearFromDay d)) (by omega) hw
  have hm : 1 ≤ m ∧ m ≤ 12 := by omega
  obtain ⟨s', n', hs', hn', ht'⟩ := month_table (yearFromDay d) m hm
  have hss : s' = s := by omega
  have hnn : n' = n := by omega
  subst hss hnn
  have hmk : d = makeDay (yearFromDay d) (m - 1) (d - dayFromYear (yearFromDay d) - s' + 1) := by
    rw [makeDay_eq _ _ _ hm, hs']
    omega
  have hdd : 1 ≤ d - dayFromYear (yearFromDay d) - s' + 1 ∧
      d - dayFromYear (yearFromDay d) - s' + 1 ≤ daysInMonth (yearFromDay d) m := by
    rw [hn']
    omega
  obtain ⟨_, c2, c3⟩ := civil_of_makeDay (yearFromDay d) m _ hm hdd
  rw [← hmk] at c2 c3
  exact ⟨m, _, hm.1, hm.2, hdd.1, hdd.2, hmk, c2, c3⟩
theorem makeDay_within_year (y m d : Int) (hm : 1 ≤ m ∧ m ≤ 12)
    (hd : 1 ≤ d ∧ d ≤ daysInMonth y m) :
    dayFromYear y ≤ makeDay y (m - 1) d ∧ makeDay y (m - 1) d < dayFromYear (y + 1) := by
  rw [makeDay_eq y m d hm, dayFromYear_succ]
  obtain ⟨s, n, hs, hn, ht⟩ := month_table y m hm
  rw [hn] at hd
  rw [hs]
  rcases leapDay_cases y with ⟨hl, hdy⟩ | ⟨hl, hdy⟩ <;> omega

theorem monthStart_lt (y m m' d : Int) (hm : 1 ≤ m ∧ m ≤ 12) (hm' : 1 ≤ m' ∧ m' ≤ 12)
    (hd : d ≤ daysInMonth y m) (hlt : m < m') :
    monthStart (m - 1) (leapDay y) + d ≤ monthStart (m' - 1) (leapDay y) := by
  obtain ⟨s, n, hs, hn, ht⟩ := month_table y m hm
  obtain ⟨s', n', hs', _, ht'⟩ := month_table y m' hm'
  rw [hn] at hd
  rw [hs, hs']
  have hL := leapDay_01 y
  generalize leapDay y = L at ht ht' hL
  rcases ht with h | h | h | h | h | h | h | h | h | h | h | h <;> omega

/-- The day number of a valid calendar date grows with the date. -/
theorem makeDay_lt (y m d y' m' d' : Int) (hm : 1 ≤ m ∧ m ≤ 12)
    (hd : 1 ≤ d ∧ d ≤ daysInMonth y m) (hm' : 1 ≤ m' ∧ m' ≤ 12)
    (hd' : 1 ≤ d' ∧ d' ≤ daysInMonth y' m')
    (hlex : y < y' ∨ (y = y' ∧ (m < m' ∨ (m = m' ∧ d < d')))) :
    makeDay y (m - 1) d < makeDay y' (m' - 1) d' := by
  rcases hlex with h | ⟨rfl, h | ⟨rfl, h⟩⟩
  · have h1 := makeDay_within_year y m d hm hd
    have h2 := makeDay_within_year y' m' d' hm' hd'
    have h3 := dayFromYear_mono (show y + 1 ≤ y' by omega)
    omega
  · have h1 := monthStart_lt y m m' d hm hm' hd.2 h
    rw [makeDay_eq y m d hm, makeDay_eq y m' d' hm']
    omega
  · rw [makeDay_eq y m d hm, makeDay_eq y m d' hm]
    omega

theorem makeDay_lt_iff (y m d y' m' d' : Int) (hm : 1 ≤ m ∧ m ≤ 12)
    (hd : 1 ≤ d ∧ d ≤ daysInMonth y m) (hm' : 1 ≤ m' ∧ m' ≤ 12)
    (hd' : 1 ≤ d' ∧ d' ≤ daysInMonth y' m') :
    makeDay y (m - 1) d < makeDay y' (m' - 1) d' ↔
      (y < y' ∨ (y = y' ∧ (m < m' ∨ (m = m' ∧ d < d')))) := by
  constructor
  · intro h
    by_contra hc
    have hge : y' < y ∨ (y' = y ∧ (m' < m ∨ (m' = m ∧ d' < d))) ∨
        (y = y' ∧ m = m' ∧ d = d') := by omega
    rcases hge with h1 | h1 | ⟨rfl, rfl, rfl⟩
    · have := makeDay_lt y' m' d' y m d hm' hd' hm hd (Or.inl h1)
      omega
    · have := makeDay_lt y' m' d' y m d hm' hd' hm hd (Or.inr h1)
      omega
    · omega
  · exact makeDay_lt y m d y' m' d' hm hd hm' hd'

theorem lt_cons_iff (a b : Char) (l l' : Str) :
    (a :: l) < (b :: l') ↔ a < b ∨ (a = b ∧ l < l') := by
  constructor
  · intro h
    cases h with
    | cons h => exact Or.inr ⟨rfl, h⟩
    | rel h => exact Or.inl h
  · rintro (h | ⟨rfl, h⟩)
    · exact List.Lex.rel h
    · exact List.Lex.cons h

theorem digitChar_lt (a b : Nat) (ha : a < 10) (hb : b < 10) :
    (Nat.digitChar a < Nat.digitChar b ↔ a < b) ∧ (Nat.digitChar a = Nat.digitChar b ↔ a = b) := by
  have h : ∀ x : Fin 10, ∀ y : Fin 10,
      (Nat.digitChar x.val < Nat.digitChar y.val ↔ x.val < y.val) ∧
      (Nat.digitChar x.val = Nat.digitChar y.val ↔ x.val = y.val) := by decide
  exact h ⟨a, ha⟩ ⟨b, hb⟩

theorem twoDigits_lt (M M' : Int) (l l' : Str) (hM : 0 ≤ M ∧ M ≤ 99) (hM' : 0 ≤ M' ∧ M' ≤ 99) :
    (twoDigits M ++ l) < (twoDigits M' ++ l') ↔ M < M' ∨ (M = M' ∧ l < l') := by
  have d1 := digitChar_lt (M.toNat / 10 % 10) (M'.toNat / 10 % 10) (by omega) (by omega)
  have d0 := digitChar_lt (M.toNat % 10) (M'.toNat % 10) (by omega) (by omega)
  simp only [twoDigits, List.cons_append, List.nil_append, lt_cons_iff, d1.1, d1.2, d0.1, d0.2]
  by_cases hP : l < l' <;> simp only [hP, and_true, and_false, or_false] <;> omega

theorem fourDigits_lt (Y Y' : Int) (l l' : Str) (hY : 0 ≤ Y ∧ Y ≤ 9999)
    (hY' : 0 ≤ Y' ∧ Y' ≤ 9999) :
    (fourDigits Y ++ l) < (fourDigits Y' ++ l') ↔ Y < Y' ∨ (Y = Y' ∧ l < l') := by
  have d3 := digitChar_lt (Y.toNat / 1000 % 10) (Y'.toNat / 1000 % 10) (by omega) (by omega)
  have d2 := digitChar_lt (Y.toNat / 100 % 10) (Y'.toNat / 100 % 10) (by omega) (by omega)
  have d1 := digitChar_lt (Y.toNat / 10 % 10) (Y'.toNat / 10 % 10) (by omega) (by omega)
  have d0 := digitChar_lt (Y.toNat % 10) (Y'.toNat % 10) (by omega) (by omega)
  simp only [fourDigits, List.cons_append, List.nil_append, lt_cons_iff, d3.1, d3.2, d2.1,
    d2.2, d1.1, d1.2, d0.1, d0.2]
  have e : (Y : Int) = 1000 * ((Y.toNat / 1000 % 10 : Nat) : Int) +
      100 * ((Y.toNat / 100 % 10 : Nat) : Int) + 10 * ((Y.toNat / 10 % 10 : Nat) : Int) +
      ((Y.toNat % 10 : Nat) : Int) := by omega
  have e' : (Y' : Int) = 1000 * ((Y'.toNat / 1000 % 10 : Nat) : Int) +
      100 * ((Y'.toNat / 100 % 10 : Nat) : Int) + 10 * ((Y'.toNat / 10 % 10 : Nat) : Int) +
      ((Y'.toNat % 10 : Nat) : Int) := by omega
  have b3 : Y.toNat / 1000 % 10 < 10 := by omega
  have b2 : Y.toNat / 100 % 10 < 10 := by omega
  have b1 : Y.toNat / 10 % 10 < 10 := by omega
  have b0 : Y.toNat % 10 < 10 := by omega
  have b3' : Y'.toNat / 1000 % 10 < 10 := by omega
  have b2' : Y'.toNat / 100 % 10 < 10 := by omega
  have b1' : Y'.toNat / 10 % 10 < 10 := by omega
  have b0' : Y'.toNat % 10 < 10 := by omega
  generalize Y.toNat / 1000 % 10 = a3 at e b3 ⊢
  generalize Y.toNat / 100 % 10 = a2 at e b2 ⊢
  generalize Y.toNat / 10 % 10 = a1 at e b1 ⊢
  generalize Y.toNat % 10 = a0 at e b0 ⊢
  generalize Y'.toNat / 1000 % 10 = c3 at e' b3' ⊢
  generalize Y'.toNat / 100 % 10 = c2 at e' b2' ⊢
  generalize Y'.toNat / 10 % 10 = c1 at e' b1' ⊢
  generalize Y'.toNat % 10 = c0 at e' b0' ⊢
  by_cases hP : l < l' <;> simp only [hP, and_true, and_false, or_false] <;> omega

/-- The string order of zero-padded day keys is the order of the calendar
dates they spell. -/
theorem paddedKey_lt_iff (Y M D Y' M' D' : Int) (hY : 0 ≤ Y ∧ Y ≤ 9999)
    (hY' : 0 ≤ Y' ∧ Y' ≤ 9999) (hM : 0 ≤ M ∧ M ≤ 99) (hM' : 0 ≤ M' ∧ M' ≤ 99)
    (hD : 0 ≤ D ∧ D ≤ 99) (hD' : 0 ≤ D' ∧ D' ≤ 99) :
    paddedKey Y M D < paddedKey Y' M' D' ↔
      (Y < Y' ∨ (Y = Y' ∧ (M < M' ∨ (M = M' ∧ D < D')))) := by
  have e : ∀ y m d : Int, paddedKey y m d =
      fourDigits y ++ ('-' :: (twoDigits m ++ ('-' :: (twoDigits d ++ [])))) := by
    intro y m d
    simp [paddedKey]
  have hnil : ¬ (([] : Str) < []) := by
    intro h
    cases h
  rw [e, e, fourDigits_lt _ _ _ _ hY hY', lt_cons_iff, twoDigits_lt _ _ _ _ hM hM', lt_cons_iff,
    twoDigits_lt _ _ _ _ hD hD']
  simp only [hnil, and_false, or_false, lt_self_iff_false, true_and, false_or]

/-- The day key of a date whose local year has four digits is the zero-padded
key of the calendar date of its local day. -/
theorem isoKey_padded (H : Host) (t : Int)
    (hY : 1000 ≤ getFullYear H t ∧ getFullYear H t ≤ 9999) :
    ∃ m dd : Int, 1 ≤ m ∧ m ≤ 12 ∧ 1 ≤ dd ∧ dd ≤ daysInMonth (getFullYear H t) m ∧
      localDay H t = makeDay (getFullYear H t) (m - 1) dd ∧
      isoKey H t = paddedKey (getFullYear H t) m dd := by
  obtain ⟨m, dd, h1, h2, h3, h4, h5, h6, h7⟩ := civil_decomp (localDay H t)
  have hdm := daysInMonth_le (yearFromDay (localDay H t)) m
  refine ⟨m, dd, h1, h2, h3, h4, h5, ?_⟩
  apply isoKey_of_civil H t _ m dd rfl
  · simp only [getMonth, h6]
    omega
  · simp only [getDate, h7]
  · exact hY
  · exact ⟨h1, h2⟩
  · exact ⟨h3, by omega⟩

/-- For dates whose local years have four digits, the string order of the day
keys is the order of the local days. -/
theorem isoKey_lt_iff (H : Host) (t1 t2 : Int)
    (h1 : 1000 ≤ getFullYear H t1 ∧ getFullYear H t1 ≤ 9999)
    (h2 : 1000 ≤ getFullYear H t2 ∧ getFullYear H t2 ≤ 9999) :
    isoKey H t1 < isoKey H t2 ↔ localDay H t1 < localDay H t2 := by
  obtain ⟨m, d, a1, a2, a3, a4, a5, a6⟩ := isoKey_padded H t1 h1
  obtain ⟨m', d', b1, b2, b3, b4, b5, b6⟩ := isoKey_padded H t2 h2
  have hd := daysInMonth_le (getFullYear H t1) m
  have hd' := daysInMonth_le (getFullYear H t2) m'
  rw [a6, b6, a5, b5, makeDay_lt_iff _ _ _ _ _ _ ⟨a1, a2⟩ ⟨a3, a4⟩ ⟨b1, b2⟩ ⟨b3, b4⟩]
  exact paddedKey_lt_iff _ _ _ _ _ _ (by omega) (by omega) (by omega) (by omega) (by omega)
    (by omega)

theorem trendData_wellFormed (U : CaseTable) (H : Host) (issues : List Issue) :
    ((trendData U H issues).map Prod.fst).Nodup ∧
    ∀ k ∈ (trendData U H issues).map Prod.fst,
      ∃ i ∈ issues, ∃ t, isActiveForTrend U i = true ∧
        parseToDate H i.foundDate = some t ∧ k = isoKey H t := by
  obtain ⟨hnd, hpos, hcount, _⟩ :=
    foldl_trendStep H (activeTrendIssues U issues) [] List.nodup_nil
      (fun p hp => absurd hp (List.not_mem_nil p))
  have hnd' : ((trendData U H issues).map Prod.fst).Nodup := hnd
  have hpos' : PositiveCounts (trendData U H issues) := hpos
  refine ⟨hnd', ?_⟩
  intro k hk
  rw [mem_keys_iff_countOf _ hpos'] at hk
  have hc := hcount k
  have hz : countOf [] k = 0 := rfl
  have hgt : 0 < (activeTrendIssues U issues).countP
      (fun i => dayKeyOf H i.foundDate == some k) := by
    have hk' : countOf (List.foldl (trendStep H) [] (activeTrendIssues U issues)) k ≠ 0 := hk
    omega
  obtain ⟨i, hi, hp⟩ := List.countP_pos_iff.1 hgt
  have hi' := List.mem_filter.1 hi
  have hkey : dayKeyOf H i.foundDate = some k := by simpa using hp
  cases hparse : parseToDate H i.foundDate with
  | none =>
    rw [dayKeyOf, hparse] at hkey
    cases hkey
  | some t =>
    rw [dayKeyOf, hparse] at hkey
    refine ⟨i, hi'.1, t, hi'.2, hparse, ?_⟩
    exact (Option.some.inj hkey).symm

/-- C7 (as stated, refuted): two Active-for-trend issues found on 5 March 2024
(serial 45356) and on 1 January 10000 (serial 2958466) give the series
"10000-01-01", "2024-03-05", the later date first; and the texts "5-3-999" and
"5-3-2024" give "2024-03-05", "999-03-05", again the later date first. -/
theorem sortedIsoDates_not_chronological :
    sortedIsoDates asciiCase utcHost
        [issueFound "Assigned".toList (.num 45356),
         issueFound "Assigned".toList (.num 2958466)] =
      ["10000-01-01".toList, "2024-03-05".toList] ∧
    (∃ t1 t2, parseToDate utcHost (.num 2958466) = some t1 ∧
      parseToDate utcHost (.num 45356) = some t2 ∧
      isoKey utcHost t1 = "10000-01-01".toList ∧ isoKey utcHost t2 = "2024-03-05".toList ∧
      isoKey utcHost t1 < isoKey utcHost t2 ∧ t2 < t1) ∧
    sortedIsoDates asciiCase utcHost
        [issueFound "Assigned".toList (.str "5-3-999".toList),
         issueFound "Assigned".toList (.str "5-3-2024".toList)] =
      ["2024-03-05".toList, "999-03-05".toList] ∧
    (∃ t1 t2, parseToDate utcHost (.str "5-3-2024".toList) = some t1 ∧
      parseToDate utcHost (.str "5-3-999".toList) = some t2 ∧
      isoKey utcHost t1 = "2024-03-05".toList ∧ isoKey utcHost t2 = "999-03-05".toList ∧
      isoKey utcHost t1 < isoKey utcHost t2 ∧ t2 < t1) := by
  refine ⟨by decide, ⟨_, _, rfl, rfl, ?_, ?_, ?_, ?_⟩, by decide, ⟨_, _, rfl, rfl, ?_, ?_, ?_, ?_⟩⟩ <;>
    decide

/-- C7 (amended): the day keys of the trend series are listed without
repetition, in strictly ascending string order; each is the day key of the
found date of an Active-for-trend issue; and the string order of two day keys
agrees with the order of the local days of their dates whenever the local
years of both dates are from 1000 to 9999. -/
theorem sortedIsoDates_sorted (U : CaseTable) (H : Host) (issues : List Issue) :
    (sortedIsoDates U H issues).Sorted (· < ·) ∧
    (sortedIsoDates U H issues).Nodup ∧
    (∀ k ∈ sortedIsoDates U H issues, ∃ i ∈ issues, ∃ t, isActiveForTrend U i = true ∧
      parseToDate H i.foundDate = some t ∧ k = isoKey H t) ∧
    (∀ t1 t2 : Int, 1000 ≤ getFullYear H t1 → getFullYear H t1 ≤ 9999 →
      1000 ≤ getFullYear H t2 → getFullYear H t2 ≤ 9999 →
      (isoKey H t1 < isoKey H t2 ↔ localDay H t1 < localDay H t2)) := by
  obtain ⟨hnd, hkeys⟩ := trendData_wellFormed U H issues
  have hperm : (sortedIsoDates U H issues).Perm ((trendData U H issues).map Prod.fst) :=
    List.perm_insertionSort _ _
  have hnd' : (sortedIsoDates U H issues).Nodup := hperm.nodup_iff.2 hnd
  have hsorted : (sortedIsoDates U H issues).Sorted (· ≤ ·) :=
    List.sorted_insertionSort _ _
  refine ⟨hsorted.lt_of_le hnd', hnd', ?_, ?_⟩
  · intro k hk
    exact hkeys k (hperm.mem_iff.1 hk)
  · intro t1 t2 a1 a2 b1 b2
    exact isoKey_lt_iff H t1 t2 ⟨a1, a2⟩ ⟨b1, b2⟩

/-! ### Tiles and resolution summary -/

theorem normalizeSeverity_label (U : CaseTable) (sev : Severity) :
    normalizeSeverity U (.str sev.label) = sev := by
  cases sev
  · have e := toUpperCase_ascii U "Blocker".toList (by decide)
    simp only [normalizeSeverity, toJsString, Severity.label, e]
    decide
  · have e := toUpperCase_ascii U "Critical".toList (by decide)
    simp only [normalizeSeverity, toJsString, Severity.label, e]
    decide
  · have e := toUpperCase_ascii U "Major".toList (by decide)
    simp only [normalizeSeverity, toJsString, Severity.label, e]
    decide
  · have e := toUpperCase_ascii U "Normal".toList (by decide)
    simp only [normalizeSeverity, toJsString, Severity.label, e]
    decide
  · have e := toUpperCase_ascii U "Minor".toList (by decide)
    simp only [normalizeSeverity, toJsString, Severity.label, e]
    decide

theorem label_injective (a b : Severity) (h : a.label = b.label) : a = b := by
  cases a <;> cases b <;> first | rfl | (exfalso; revert h; decide)

theorem severityOfLabel_label (sev : Severity) : severityOfLabel sev.label = some sev := by
  cases sev <;> decide

theorem tileStep_label (counts : Severity → Nat) (i : Issue) (sev : Severity)
    (h : i.severity = .str sev.label) : tileStep counts i = bump counts sev := by
  cases sev <;> simp [tileStep, h, Severity.label]

theorem resolutionStep_label (counts : Severity → Nat) (i : Issue) (sev : Severity)
    (h : i.severity = .str sev.label) : resolutionStep counts i = bump counts sev := by
  simp only [resolutionStep, h, toJsString, severityOfLabel_label]

theorem tileSum_bump (counts : Severity → Nat) (sev : Severity) :
    tileSum (bump counts sev) = tileSum counts + 1 := by
  cases sev <;> simp [tileSum, bump] <;> omega

/-- A loop that adds one under the severity of each normalized issue counts,
under each level, the issues of that level, and in all as many as there are
issues. -/
theorem foldl_bump_counts (step : (Severity → Nat) → Issue → Severity → Nat)
    (hstep : ∀ counts i sev, i.severity = .str sev.label → step counts i = bump counts sev)
    (l : List Issue) (hnorm : ∀ i ∈ l, IsNormalized i) :
    ∀ counts : Severity → Nat,
      (∀ sev, (l.foldl step counts) sev =
        counts sev + l.countP (fun i => i.severity == .str sev.label)) ∧
      tileSum (l.foldl step counts) = tileSum counts + l.length := by
  induction l with
  | nil =>
    intro counts
    exact ⟨fun _ => rfl, rfl⟩
  | cons i rest ih =>
    intro counts
    obtain ⟨s0, hs0⟩ := hnorm i (List.mem_cons_self i rest)
    have ih' := ih (fun j hj => hnorm j (List.mem_cons_of_mem i hj)) (bump counts s0)
    rw [List.foldl_cons, hstep counts i s0 hs0]
    refine ⟨?_, ?_⟩
    · intro sev
      rw [ih'.1 sev]
      by_cases hs : sev = s0
      · subst hs
        have hb : (i.severity == JsVal.str sev.label) = true := by
          rw [hs0]
          exact beq_self_eq_true _
        rw [List.countP_cons]
        simp only [hb, bump, if_true]
        omega
      · have hb : (i.severity == JsVal.str sev.label) = false := by
          rw [hs0, beq_eq_false_iff_ne]
          intro e
          exact hs (label_injective _ _ (JsVal.str.inj e)).symm
        rw [List.countP_cons]
        simp only [hb, bump, if_neg hs, Bool.false_eq_true, if_false, Nat.add_zero]
    · rw [ih'.2, tileSum_bump, List.length_cons]
      omega

theorem tileSum_zero : tileSum (fun _ => 0) = 0 := rfl

/-- C11: for every sequence of normalized issues, `fixedCount` is the number of
issues whose uppercased state is exactly "FIXED", "RESOLVED" or "CLOSED", the
entry of `bySeverity` for each level is the number of those issues with that
severity, and the five entries sum to `fixedCount`. -/
theorem renderResolutionChart_summary (U : CaseTable) (issues : List Issue)
    (hnorm : ∀ i ∈ issues, IsNormalized i) :
    (renderResolutionChart U issues).fixedCount = issues.countP (isResolved U) ∧
    (∀ i : Issue, isResolved U i = true ↔
      (toUpperCase U (toJsString i.state) = "FIXED".toList ∨
       toUpperCase U (toJsString i.state) = "RESOLVED".toList ∨
       toUpperCase U (toJsString i.state) = "CLOSED".toList)) ∧
    (∀ sev : Severity, (renderResolutionChart U issues).bySeverity sev =
      issues.countP (fun i => isResolved U i && (i.severity == .str sev.label))) ∧
    tileSum (renderResolutionChart U issues).bySeverity =
      (renderResolutionChart U issues).fixedCount := by
  have hfixed : ∀ i ∈ fixedIssues U issues, IsNormalized i :=
    fun i hi => hnorm i (List.mem_filter.1 hi).1
  obtain ⟨h1, h2⟩ := foldl_bump_counts resolutionStep resolutionStep_label
    (fixedIssues U issues) hfixed (fun _ => 0)
  refine ⟨?_, ?_, ?_, ?_⟩
  · simp only [renderResolutionChart, fixedIssues, List.countP_eq_length_filter]
  · intro i
    simp only [isResolved, Bool.or_eq_true, beq_iff_eq, or_assoc]
  · intro sev
    simp only [renderResolutionChart]
    rw [h1 sev, Nat.zero_add]
    unfold fixedIssues
    rw [List.countP_filter]
    apply List.countP_congr
    intro i _
    simp [Bool.and_comm]
  · simp only [renderResolutionChart]
    rw [h2, tileSum_zero, Nat.zero_add]

/-- Three normalized issues, two of them fixed or closed: `fixedCount` is 2 and
the entries of `bySeverity` are Critical 1 and Minor 1. -/
theorem renderResolutionChart_summary_witness :
    (renderResolutionChart asciiCase
        [issueOfType "UI".toList "Critical".toList,
         { issueOfType "UI".toList "Critical".toList with state := .str "fixed".toList },
         { issueOfType "API".toList "Minor".toList with state := .str "Closed".toList }]).fixedCount
      = 2 ∧
    tileSum (renderResolutionChart asciiCase
        [issueOfType "UI".toList "Critical".toList,
         { issueOfType "UI".toList "Critical".toList with state := .str "fixed".toList },
         { issueOfType "API".toList "Minor".toList with state := .str "Closed".toList }]).bySeverity
      = 2 :=
  have h := renderResolutionChart_summary asciiCase
    [issueOfType "UI".toList "Critical".toList,
     { issueOfType "UI".toList "Critical".toList with state := .str "fixed".toList },
     { issueOfType "API".toList "Minor".toList with state := .str "Closed".toList }]
    (by
      intro i hi
      simp only [List.mem_cons, List.mem_singleton, List.not_mem_nil, or_false] at hi
      rcases hi with rfl | rfl | rfl
      · exact ⟨.Critical, rfl⟩
      · exact ⟨.Critical, rfl⟩
      · exact ⟨.Minor, rfl⟩)
  ⟨h.1.trans (by decide), h.2.2.2.trans (h.1.trans (by decide))⟩

theorem normKey_ascii (U : CaseTable) (k : Str) (h : ∀ c ∈ k, c.toNat < 128) :
    normKey U k = normKey asciiCase k := by
  simp only [normKey, toLowerCase, U.lower_ascii k h, asciiCase.lower_ascii k h]

theorem find?_congr_mem {α : Type} (p q : α → Bool) (l : List α)
    (h : ∀ x ∈ l, p x = q x) : l.find? p = l.find? q := by
  induction l with
  | nil => rfl
  | cons a l ih =>
    rw [List.find?_cons, List.find?_cons, h a (List.mem_cons_self a l),
      ih (fun x hx => h x (List.mem_cons_of_mem a hx))]

/-- On a record with ASCII keys and for ASCII aliases, `norm` does not depend on
the case table. -/
theorem norm_ascii (U : CaseTable) (row : RawRecord) (aliases : List Str)
    (hrow : ∀ p ∈ row, ∀ c ∈ p.1, c.toNat < 128)
    (hal : ∀ a ∈ aliases, ∀ c ∈ a, c.toNat < 128) :
    norm U row aliases = norm asciiCase row aliases := by
  induction aliases with
  | nil => rfl
  | cons a rest ih =>
    have ih' := ih (fun b hb => hal b (List.mem_cons_of_mem a hb))
    have ha := normKey_ascii U a (hal a (List.mem_cons_self a rest))
    have hfind : findKey U row a = findKey asciiCase row a := by
      unfold findKey
      apply find?_congr_mem
      intro k hk
      obtain ⟨p, hp, rfl⟩ := List.mem_map.1 hk
      rw [normKey_ascii U p.1 (hrow p hp), ha]
    rw [norm, norm, hfind, ih']

theorem mappedData_ascii (item : ApiItem) :
    ∀ p ∈ mappedData item, ∀ c ∈ p.1, c.toNat < 128 := by
  intro p hp
  simp only [mappedData, List.mem_cons, List.mem_singleton, List.not_mem_nil, or_false] at hp
  rcases hp with rfl | rfl | rfl | rfl | rfl | rfl | rfl | rfl <;> dsimp only <;> decide

theorem norm_mappedData_severity (U : CaseTable) (item : ApiItem) :
    norm U (mappedData item) severityAliases = item.severity := by
  rw [norm_ascii U _ _ (mappedData_ascii item) (by decide)]
  rfl

theorem norm_mappedData_state (U : CaseTable) (item : ApiItem) :
    norm U (mappedData item) ["State".toList, "Status".toList] = item.state := by
  rw [norm_ascii U _ _ (mappedData_ascii item) (by decide)]
  rfl

theorem normalizeIssue_normalized (U : CaseTable) (row : RawRecord) :
    (normalizeIssue U row).severity =
      .str (normalizeSeverity U (norm U row severityAliases)).label := rfl

theorem processData_normalized (U : CaseTable) (data : List RawRecord) :
    ∀ i ∈ processData U data, IsNormalized i := by
  intro i hi
  obtain ⟨row, _, rfl⟩ := List.mem_map.1 hi
  exact ⟨_, normalizeIssue_normalized U row⟩

theorem tileCounts_of_severities (issues issues' : List Issue)
    (h : issues.map (fun i => i.severity) = issues'.map (fun i => i.severity)) :
    tileCounts issues = tileCounts issues' := by
  unfold tileCounts
  generalize (fun _ => 0 : Severity → Nat) = c
  induction issues generalizing issues' c with
  | nil =>
    cases issues' with
    | nil => rfl
    | cons j rest' => cases h
  | cons i rest ih =>
    cases issues' with
    | nil => cases h
    | cons j rest' =>
      simp only [List.map_cons, List.cons.injEq] at h
      have hstep : tileStep c i = tileStep c j := by
        simp only [tileStep, h.1]
      rw [List.foldl_cons, List.foldl_cons, hstep]
      exact ih rest' h.2 _

theorem bump_zero_apply (sev x : Severity) :
    bump (fun _ => 0 : Severity → Nat) sev x = if x = sev then 1 else 0 := by
  simp [bump]

/-- C12: for every sequence of raw records, the tile count of each level is the
number of records whose resolved Severity/Priority value classifies to that
level, and the five tile counts sum to the number of records; the tile counts
read the severity of the issues only, so they do not change when the found and
fixed dates of the records do; and the Scenario A record has the normalized
severity Critical, the tiles Critical 1 and 0 elsewhere, and the resolution
summary `fixedCount` 1 with Critical 1 and 0 elsewhere. -/
theorem tileCounts_processData (U : CaseTable) :
    (∀ (data : List RawRecord) (sev : Severity), tileCounts (processData U data) sev =
      data.countP (fun row => normalizeSeverity U (norm U row severityAliases) == sev)) ∧
    (∀ data : List RawRecord, tileSum (tileCounts (processData U data)) = data.length) ∧
    (∀ issues issues' : List Issue,
      issues.map (fun i => i.severity) = issues'.map (fun i => i.severity) →
      tileCounts issues = tileCounts issues') ∧
    (∀ (items : List ApiItem) (f g : ApiItem → JsVal),
      tileCounts (processData U
        (items.map (fun it => mappedData { it with bug_found := f it, bug_fixed := g it }))) =
      tileCounts (processData U (items.map mappedData))) ∧
    (processData U [mappedData scenarioA]).map (fun i => i.severity) =
      [.str "Critical".toList] ∧
    (∀ sev : Severity, tileCounts (processData U [mappedData scenarioA]) sev =
      if sev = .Critical then 1 else 0) ∧
    (renderResolutionChart U (processData U [mappedData scenarioA])).fixedCount = 1 ∧
    (∀ sev : Severity,
      (renderResolutionChart U (processData U [mappedData scenarioA])).bySeverity sev =
        if sev = .Critical then 1 else 0) := by
  have hcounts : ∀ data : List RawRecord,
      (∀ sev, tileCounts (processData U data) sev =
        (processData U data).countP (fun i => i.severity == .str sev.label)) ∧
      tileSum (tileCounts (processData U data)) = (processData U data).length := by
    intro data
    obtain ⟨h1, h2⟩ := foldl_bump_counts tileStep tileStep_label (processData U data)
      (processData_normalized U data) (fun _ => 0)
    refine ⟨fun sev => ?_, ?_⟩
    · rw [tileCounts, h1 sev, Nat.zero_add]
    · rw [tileCounts, h2, tileSum_zero, Nat.zero_add]
  have hsevA : normalizeSeverity U (.str "P0".toList) = .Critical := by
    have e := toUpperCase_ascii U "P0".toList (by decide)
    simp only [normalizeSeverity, toJsString, e]
    decide
  have hA : (normalizeIssue U (mappedData scenarioA)).severity =
      .str Severity.Critical.label := by
    rw [normalizeIssue_normalized, norm_mappedData_severity]
    show JsVal.str (normalizeSeverity U (.str "P0".toList)).label = _
    rw [hsevA]
  have hstateA : (normalizeIssue U (mappedData scenarioA)).state = .str "Fixed".toList := by
    show norm U (mappedData scenarioA) ["State".toList, "Status".toList] = _
    rw [norm_mappedData_state]
    rfl
  have hresA : isResolved U (normalizeIssue U (mappedData scenarioA)) = true := by
    have e := toUpperCase_ascii U "Fixed".toList (by decide)
    simp only [isResolved, hstateA, toJsString, e]
    decide
  have hfixedA : fixedIssues U (processData U [mappedData scenarioA]) =
      [normalizeIssue U (mappedData scenarioA)] := by
    simp only [fixedIssues, processData, List.map_cons, List.map_nil, List.filter_cons, hresA,
      if_true, List.filter_nil]
  refine ⟨?_, ?_, tileCounts_of_severities, ?_, ?_, ?_, ?_, ?_⟩
  · intro data sev
    rw [(hcounts data).1 sev, processData, List.countP_map]
    apply List.countP_congr
    intro row _
    simp only [Function.comp, normalizeIssue_normalized, beq_iff_eq]
    constructor
    · intro h
      exact label_injective _ _ (JsVal.str.inj h)
    · intro h
      rw [h]
  · intro data
    rw [(hcounts data).2, processData, List.length_map]
  · intro items f g
    apply tileCounts_of_severities
    simp only [processData, List.map_map]
    apply List.map_congr_left
    intro it _
    simp only [Function.comp, normalizeIssue_normalized, norm_mappedData_severity]
  · simp only [processData, List.map_cons, List.map_nil, hA]
    rfl
  · intro sev
    have : tileCounts (processData U [mappedData scenarioA]) =
        bump (fun _ => 0) Severity.Critical := by
      simp only [tileCounts, processData, List.map_cons, List.map_nil, List.foldl_cons,
        List.foldl_nil, tileStep_label _ _ _ hA]
    rw [this, bump_zero_apply]
  · simp only [renderResolutionChart, hfixedA, List.length_singleton]
  · intro sev
    simp only [renderResolutionChart, hfixedA, List.foldl_cons, List.foldl_nil,
      resolutionStep_label _ _ _ hA]
    rw [bump_zero_apply]

/-- C14: `normalizeSeverity` is idempotent, the label of the level it returns
being classified to that level again; hence for an issue that stores the label
of a level (as every issue built by `processData` does) the classification that
`renderGenericMatrix` applies returns that level, the issue is counted in the
column and in the cell of that level when its row is counted, and the tile that
counts the issue is the tile of the same level. -/
theorem normalizeSeverity_idempotent (U : CaseTable) :
    (∀ v : JsVal,
      normalizeSeverity U (.str (normalizeSeverity U v).label) = normalizeSeverity U v) ∧
    (∀ sev : Severity, normalizeSeverity U (.str sev.label) = sev) ∧
    (∀ row : RawRecord, normalizeSeverity U (normalizeIssue U row).severity =
      normalizeSeverity U (norm U row severityAliases)) ∧
    (∀ (i : Issue) (sev : Severity), i.severity = .str sev.label →
      normalizeSeverity U i.severity = sev ∧
      (∀ (rows : List Str) (st : MatrixState) (key : Str), matrixHas rows st key = true →
        (countIssue rows st key (normalizeSeverity U i.severity)).colTotals =
          bump st.colTotals sev ∧
        (isOwnRow rows key = true →
          (countIssue rows st key (normalizeSeverity U i.severity)).cells key =
            bump (st.cells key) sev)) ∧
      (∀ counts : Severity → Nat, tileStep counts i = bump counts sev)) := by
  refine ⟨fun v => normalizeSeverity_label U _, normalizeSeverity_label U, ?_, ?_⟩
  · intro row
    rw [normalizeIssue_normalized, normalizeSeverity_label]
  · intro i sev h
    have hs : normalizeSeverity U i.severity = sev := by
      rw [h, normalizeSeverity_label]
    refine ⟨hs, ?_, fun counts => tileStep_label counts i sev h⟩
    intro rows st key hk
    rw [hs]
    constructor
    · simp only [countIssue, hk, if_true]
    · intro hown
      simp only [countIssue, hk, if_true, hown, Bool.true_or]

/-! ### State matrix rows -/

theorem mem_newSet (l : List Str) (x : Str) : x ∈ newSet l ↔ x ∈ l := by
  induction l with
  | nil => simp [newSet]
  | cons a l ih =>
    rw [newSet, List.mem_cons, List.mem_cons, List.mem_filter, ih]
    by_cases h : x = a
    · simp [h]
    · simp [h]

theorem stateStrings_of_strings (issues : List Issue)
    (h : ∀ i ∈ issues, ∃ s, i.state = .str s) :
    ∃ states, stateStrings issues = some states ∧
      ∀ i ∈ issues, ∃ s ∈ states, i.state = .str s := by
  induction issues with
  | nil => exact ⟨[], rfl, fun i hi => absurd hi (List.not_mem_nil i)⟩
  | cons i rest ih =>
    obtain ⟨states, h1, h2⟩ := ih (fun j hj => h j (List.mem_cons_of_mem i hj))
    obtain ⟨s, hs⟩ := h i (List.mem_cons_self i rest)
    refine ⟨s :: states, ?_, ?_⟩
    · simp only [stateStrings, hs, h1]
    · intro j hj
      rcases List.mem_cons.1 hj with rfl | hj'
      · exact ⟨s, List.mem_cons_self s states, hs⟩
      · obtain ⟨t, ht, hjt⟩ := h2 j hj'
        exact ⟨t, List.mem_cons_of_mem s ht, hjt⟩

theorem pushState_extends (U : CaseTable) (fin : List Str) (s : Str) :
    fin <+: pushState U fin s := by
  unfold pushState
  simp only
  split_ifs
  · exact List.prefix_append fin [s]
  · exact List.prefix_refl fin

theorem foldl_pushState_extends (U : CaseTable) (l : List Str) :
    ∀ fin : List Str, fin <+: l.foldl (pushState U) fin := by
  induction l with
  | nil => exact fun fin => List.prefix_refl fin
  | cons s l ih =>
    intro fin
    rw [List.foldl_cons]
    exact (pushState_extends U fin s).trans (ih _)

theorem pushState_mem (U : CaseTable) (fin : List Str) (s : Str)
    (h : stateOrder.find? (fun so => toLowerCase U so == toLowerCase U s) = none) :
    s ∈ pushState U fin s := by
  unfold pushState
  simp only [h, Bool.true_and]
  by_cases hc : fin.contains s = true
  · have hmem : s ∈ fin := by
      rw [List.contains_eq_any_beq, List.any_eq_true] at hc
      obtain ⟨x, hx, hxe⟩ := hc
      have e : s = x := eq_of_beq hxe
      rw [e]
      exact hx
    simp only [hc, Bool.not_true, Bool.false_eq_true, if_false]
    exact hmem
  · have hc' : fin.contains s = false := by simpa using hc
    simp only [hc', Bool.not_false, if_true]
    exact List.mem_append_right fin (List.mem_singleton_self s)

theorem foldl_pushState_mem (U : CaseTable) (l : List Str) :
    ∀ fin : List Str, ∀ s ∈ l,
      stateOrder.find? (fun so => toLowerCase U so == toLowerCase U s) = none →
      s ∈ l.foldl (pushState U) fin := by
  induction l with
  | nil => exact fun fin s hs => absurd hs (List.not_mem_nil s)
  | cons a l ih =>
    intro fin s hs hnone
    rw [List.foldl_cons]
    rcases List.mem_cons.1 hs with rfl | hs'
    · exact (foldl_pushState_extends U l _).subset (pushState_mem U fin s hnone)
    · exact ih _ s hs' hnone

/-- Every distinct state equals one of the derived rows ignoring case. -/
theorem finalStates_covers (U : CaseTable) (presentStates : List Str) :
    ∀ s ∈ presentStates, ∃ r ∈ finalStates U presentStates,
      toLowerCase U r = toLowerCase U s := by
  intro s hs
  cases hf : stateOrder.find? (fun so => toLowerCase U so == toLowerCase U s) with
  | none => exact ⟨s, foldl_pushState_mem U presentStates _ s hs hf, rfl⟩
  | some so =>
    have hso : so ∈ stateOrder := List.mem_of_find?_eq_some hf
    have hlow : (toLowerCase U so == toLowerCase U s) = true := by
      have h0 := List.find?_some hf
      exact h0
    have hbase : so ∈ stateOrder.filter (fun s => presentStates.contains s ||
        presentStates.any (fun ps => toLowerCase U ps == toLowerCase U s)) := by
      rw [List.mem_filter]
      refine ⟨hso, ?_⟩
      have hany : presentStates.any (fun ps => toLowerCase U ps == toLowerCase U so) = true := by
        rw [List.any_eq_true]
        refine ⟨s, hs, ?_⟩
        rw [eq_of_beq hlow]
        exact beq_self_eq_true _
      rw [hany, Bool.or_true]
    exact ⟨so, (foldl_pushState_extends U presentStates _).subset hbase, eq_of_beq hlow⟩

theorem matrixHas_of_mem (rows : List Str) (st : MatrixState) (key : Str) (h : key ∈ rows) :
    matrixHas rows st key = true := by
  have hc : rows.contains key = true := by
    rw [List.contains_eq_any_beq, List.any_eq_true]
    exact ⟨key, h, beq_self_eq_true _⟩
  unfold matrixHas
  split_ifs <;> rfl

/-- In the state dimension an issue whose state equals a declared row ignoring
case is counted under a declared row. -/
theorem matrixKey_state_mem (U : CaseTable) (rows : List Str) (i : Issue) (v : Str)
    (hv : i.state = .str v) (hrow : ∃ r ∈ rows, toLowerCase U r = toLowerCase U v) :
    ∃ key, matrixKey U rows .state i = some key ∧ key ∈ rows := by
  obtain ⟨r, hr, hrv⟩ := hrow
  cases rows with
  | nil => exact absurd hr (List.not_mem_nil r)
  | cons r0 rs =>
    cases hf : (r0 :: rs).find? (fun fs => toLowerCase U fs == toLowerCase U v) with
    | none =>
      have hall := List.find?_eq_none.1 hf
      exact absurd (by rw [hrv]; exact beq_self_eq_true _) (hall r hr)
    | some fs =>
      have hfs : fs ∈ r0 :: rs := List.mem_of_find?_eq_some hf
      have hlow : (toLowerCase U fs == toLowerCase U v) = true := by
        have h0 := List.find?_some hf
        exact h0
      cases hfe : fs with
      | nil =>
        have hvnil : v = [] := by
          apply U.lower_eq_nil
          have h1 : toLowerCase U fs = toLowerCase U v := eq_of_beq hlow
          rw [hfe] at h1
          have h2 : U.lowerStr [] = [] := U.lower_ascii [] (by simp)
          exact h1.symm.trans h2
        refine ⟨v, ?_, ?_⟩
        · simp only [matrixKey, Issue.field, hv, hf, hfe, List.isEmpty_nil, if_true]
        · rw [hvnil, ← hfe]
          exact hfs
      | cons c t =>
        refine ⟨fs, ?_, hfs⟩
        simp only [matrixKey, Issue.field, hv, hf, hfe, List.isEmpty_cons,
          Bool.false_eq_true, if_false]

theorem countIssues_total (U : CaseTable) (rows : List Str) (issues : List Issue)
    (h : ∀ i ∈ issues, ∃ v, i.state = .str v ∧
      ∃ r ∈ rows, toLowerCase U r = toLowerCase U v) :
    ∀ st : MatrixState, ∃ m, countIssues U rows .state st issues = some m ∧
      m.total = st.total + issues.length ∧ colSum m = colSum st + issues.length := by
  induction issues with
  | nil => exact fun st => ⟨st, rfl, rfl, rfl⟩
  | cons i rest ih =>
    intro st
    obtain ⟨v, hv, hrow⟩ := h i (List.mem_cons_self i rest)
    obtain ⟨key, hk, hmem⟩ := matrixKey_state_mem U rows i v hv hrow
    have hhas := matrixHas_of_mem rows st key hmem
    obtain ⟨m, h1, h2, h3⟩ := ih (fun j hj => h j (List.mem_cons_of_mem i hj))
      (countIssue rows st key (normalizeSeverity U i.severity))
    refine ⟨m, ?_, ?_, ?_⟩
    · rw [countIssues, hk]
      exact h1
    · rw [h2, List.length_cons]
      simp only [countIssue, hhas, if_true]
      omega
    · rw [h3, List.length_cons]
      simp only [countIssue, hhas, if_true, colSum_bump]
      omega

/-- C13: for every issue sequence whose states are strings, every issue's state
equals one of the rows that `renderStateMatrix` derives ignoring case, the
conventional rows that are present come first in the derived list, and the
state matrix is built with a grand total (and a sum of the severity column
totals) equal to the number of issues passed in. -/
theorem renderStateMatrix_total (U : CaseTable) (issues : List Issue)
    (hstr : ∀ i ∈ issues, ∃ s, i.state = .str s) :
    ∃ states m, stateStrings issues = some states ∧
      (∀ i ∈ issues,
        matchesDeclaredRow U (finalStates U (newSet states)) .state i = true) ∧
      stateOrder.filter (fun s => (newSet states).contains s ||
        (newSet states).any (fun ps => toLowerCase U ps == toLowerCase U s)) <+:
        finalStates U (newSet states) ∧
      renderStateMatrix U issues = some m ∧
      m.total = issues.length ∧ colSum m = issues.length := by
  obtain ⟨states, hst, hmem⟩ := stateStrings_of_strings issues hstr
  have hcover : ∀ i ∈ issues, ∃ v, i.state = .str v ∧
      ∃ r ∈ finalStates U (newSet states), toLowerCase U r = toLowerCase U v := by
    intro i hi
    obtain ⟨s, hs, his⟩ := hmem i hi
    exact ⟨s, his, finalStates_covers U (newSet states) s ((mem_newSet states s).2 hs)⟩
  obtain ⟨m, h1, h2, h3⟩ :=
    countIssues_total U (finalStates U (newSet states)) issues hcover MatrixState.init
  refine ⟨states, m, hst, ?_, foldl_pushState_extends U _ _, ?_, ?_, ?_⟩
  · intro i hi
    obtain ⟨v, hv, r, hr, hrv⟩ := hcover i hi
    simp only [matchesDeclaredRow, hv, toJsString, List.any_eq_true]
    exact ⟨r, hr, by rw [hrv]; exact beq_self_eq_true _⟩
  · simp only [renderStateMatrix, hst, renderGenericMatrix]
    exact h1
  · rw [h2]
    show 0 + issues.length = issues.length
    omega
  · rw [h3]
    show 0 + issues.length = issues.length
    omega

/-- Three issues with the states "rft", "Weird" and "__proto__": the derived
rows are "RFT", "Weird", "__proto__" and the grand total is 3. -/
theorem renderStateMatrix_total_witness :
    finalStates asciiCase (newSet ["rft".toList, "Weird".toList, "__proto__".toList]) =
      ["RFT".toList, "Weird".toList, "__proto__".toList] ∧
    (renderStateMatrix asciiCase [issueWithState "rft".toList, issueWithState "Weird".toList,
      issueWithState "__proto__".toList]).map (fun m => m.total) = some 3 := by
  obtain ⟨states, m, _, _, _, b, c, _⟩ := renderStateMatrix_total asciiCase
    [issueWithState "rft".toList, issueWithState "Weird".toList,
      issueWithState "__proto__".toList]
    (by
      intro i hi
      simp only [List.mem_cons, List.mem_singleton, List.not_mem_nil, or_false] at hi
      rcases hi with rfl | rfl | rfl
      · exact ⟨_, rfl⟩
      · exact ⟨_, rfl⟩
      · exact ⟨_, rfl⟩)
  refine ⟨by decide, ?_⟩
  rw [b]
  exact congrArg some c

end IssueTracker
